import Mathlib

/-!
# HD44780 4-bit LCD transport: a shallow embedding of `hd44780.hpp`

The driver `hd44780::lcd<pins_type>` is embedded over a recorded pin trace.
The pin interface of `avr_utilities/pin_definitions.hpp` and the delay
primitives of `<util/delay.h>` are not part of the embedded file; every call
to them is recorded as an event `Ev`, and the value a `read` returns is given
by a simulated device `dev : Trace → Nat` that sees the whole history.

Bytes (`uint8_t`) are natural numbers, reduced `% 256` where the source
narrows a wider value into a `byte`.  Delay amounts are exact rationals: the
value of the `double` argument the source passes, so the literals `4.1` and
`0.1`, which are not binary fractions, are recorded as the binary64 numbers
they denote.  The unbounded loop of `wait_ready` takes
a poll budget (`fuel`); a run that exhausts it ends as `Res.spin`, keeping the
trace recorded so far.
-/

namespace hd44780

/-! ## Command encoders (`namespace commands`) -/

namespace commands

def if_ (condition : Bool) (value : Nat) : Nat :=
  if condition then value else 0

def clr : Nat := 0x01

def home : Nat := 0x02

def entry_mode (increment shift : Bool) : Nat :=
  0x04 ||| if_ increment 0x02 ||| if_ shift 0x01

def display_control (display cursor blink : Bool) : Nat :=
  0x08 ||| if_ display 0x04 ||| if_ cursor 0x02 ||| if_ blink 0x01

def shift (shift right : Bool) : Nat :=
  0x10 ||| if_ shift 0x08 ||| if_ right 0x04

def function_set (if8bit two_lines font_5x10 : Bool) : Nat :=
  0x20 ||| if_ if8bit 0x10 ||| if_ two_lines 0x08 ||| if_ font_5x10 0x04

def cg_addr (addr : Nat) : Nat :=
  0x40 ||| (addr &&& 0x3f)

def dd_addr (addr : Nat) : Nat :=
  0x80 ||| (addr &&& 0x7f)

end commands

/-! ## Recorded pin interface -/

/-- The four roles of `pins_type`: `pins.e`, `pins.rw`, `pins.rs`, `pins.data`. -/
inductive Pin
  | e
  | rw
  | rs
  | data
  deriving DecidableEq, Repr

/-- One recorded call of the pin interface or of a delay primitive.  A `read`
records the value it returned. -/
inductive Ev
  | make_output (g : List Pin)
  | make_input (g : List Pin)
  | set (p : Pin)
  | reset (p : Pin)
  | write (p : Pin) (v : Nat)
  | read (p : Pin) (v : Nat)
  | delay_ms (ms : ℚ)
  | delay_us (us : ℚ)
  | nop
  deriving DecidableEq

abbrev Trace := List Ev

/-- Outcome of a driver call: it returned `a` with trace `t`, or it was still
polling the busy flag when the poll budget ran out. -/
inductive Res (α : Type)
  | done (a : α) (t : Trace)
  | spin (t : Trace)

namespace Res

def trace {α : Type} : Res α → Trace
  | done _ t => t
  | spin t => t

def bind {α β : Type} : Res α → (α → Trace → Res β) → Res β
  | done a t, f => f a t
  | spin t, _ => spin t

end Res

/-! ## Floating-point literals -/

/-- The value of the C++ literal `4.1` that `init` passes to `_delay_ms`.  The
literal has type `double`; 41/10 is not a binary fraction, and the IEEE 754
binary64 number nearest to it is 2308094809027379 / 2^49, just below 41/10.
(The binary32 number nearest to 41/10 is below 41/10 as well.) -/
def double_4_1 : ℚ := 2308094809027379 / 562949953421312

/-- The value of the C++ literal `0.1` that `init` passes to `_delay_ms`: the
IEEE 754 binary64 number nearest to 1/10 is 3602879701896397 / 2^55, just above
1/10.  (The binary32 number nearest to 1/10 is above 1/10 as well.) -/
def double_0_1 : ℚ := 3602879701896397 / 36028797018963968

/-! ## The transport (`class lcd`) -/

namespace lcd

def BUSY_FLAG : Nat := 0x80

/-- The body of `delay_500ns()`; the preprocessor selects it on `F_CPU`. -/
def delay_500ns (F_CPU : Nat) : List Ev :=
  if F_CPU > 4000000 then
    [Ev.delay_us 0.5]
  else
    [Ev.nop] ++
      (if F_CPU > 1000000 then
        [Ev.nop] ++ (if F_CPU > 2000000 then [Ev.nop, Ev.nop] else [])
      else [])

def outnibble (F_CPU : Nat) (nibble : Nat) (t : Trace) : Trace :=
  t ++ [Ev.reset Pin.rw, Ev.write Pin.data nibble, Ev.set Pin.e]
    ++ delay_500ns F_CPU ++ [Ev.reset Pin.e]

def innibble (dev : Trace → Nat) (F_CPU : Nat) (t : Trace) : Nat × Trace :=
  let t1 := t ++ [Ev.set Pin.rw, Ev.make_input [Pin.data], Ev.set Pin.e]
    ++ delay_500ns F_CPU
  let result := dev t1 % 256
  (result, t1 ++ [Ev.read Pin.data result, Ev.reset Pin.e, Ev.make_output [Pin.data]])

def inbyte (dev : Trace → Nat) (F_CPU : Nat) (set_rs : Bool) (t : Trace) : Nat × Trace :=
  let t0 := t ++ [if set_rs then Ev.set Pin.rs else Ev.reset Pin.rs]
  let hi := innibble dev F_CPU t0
  let result := (hi.1 <<< 4) % 256
  let lo := innibble dev F_CPU hi.2
  (result ||| lo.1, lo.2)

def data_in (dev : Trace → Nat) (F_CPU : Nat) (t : Trace) : Nat × Trace :=
  inbyte dev F_CPU true t

def command_in (dev : Trace → Nat) (F_CPU : Nat) (t : Trace) : Nat × Trace :=
  inbyte dev F_CPU false t

/-- The loop `while (command_in() & BUSY_FLAG);` of `wait_ready()`, with at most
`fuel` status reads. -/
def wait_ready (dev : Trace → Nat) (F_CPU : Nat) : Nat → Trace → Res Unit
  | 0, t => Res.spin t
  | fuel + 1, t =>
    let st := command_in dev F_CPU t
    if st.1 &&& BUSY_FLAG ≠ 0 then wait_ready dev F_CPU fuel st.2
    else Res.done () st.2

def outbyte (dev : Trace → Nat) (F_CPU fuel : Nat) (byte : Nat) (set_rs : Bool)
    (t : Trace) : Res Unit :=
  let t0 := t ++ [if set_rs then Ev.set Pin.rs else Ev.reset Pin.rs]
  let t1 := outnibble F_CPU (byte >>> 4) t0
  let t2 := outnibble F_CPU (byte &&& 0x0f) t1
  wait_ready dev F_CPU fuel t2

def data_out (dev : Trace → Nat) (F_CPU fuel : Nat) (data : Nat) (t : Trace) : Res Unit :=
  outbyte dev F_CPU fuel data true t

def command_out (dev : Trace → Nat) (F_CPU fuel : Nat) (command : Nat) (t : Trace) :
    Res Unit :=
  outbyte dev F_CPU fuel command false t

open commands in
def init (dev : Trace → Nat) (F_CPU fuel : Nat) (t : Trace) : Res Unit :=
  let t := t ++ [Ev.make_output [Pin.e, Pin.rw, Pin.rs, Pin.data], Ev.reset Pin.rs]
  let t := t ++ [Ev.delay_ms 15]
  let t := outnibble F_CPU 0x03 t
  let t := t ++ [Ev.delay_ms double_4_1]
  let t := outnibble F_CPU 0x03 t
  let t := t ++ [Ev.delay_ms double_0_1]
  let t := outnibble F_CPU 0x03 t
  let t := outnibble F_CPU (function_set false true false >>> 4) t
  (wait_ready dev F_CPU fuel t).bind fun _ t =>
  (command_out dev F_CPU fuel (function_set false true false) t).bind fun _ t =>
  (command_out dev F_CPU fuel (display_control false false false) t).bind fun _ t =>
  (command_out dev F_CPU fuel clr t).bind fun _ t =>
  (command_out dev F_CPU fuel (entry_mode true false) t).bind fun _ t =>
  (command_out dev F_CPU fuel (display_control true false false) t).bind fun _ t =>
  command_out dev F_CPU fuel (function_set false true false) t

def cls (dev : Trace → Nat) (F_CPU fuel : Nat) (t : Trace) : Res Unit :=
  (command_out dev F_CPU fuel commands.clr t).bind fun _ t =>
  (command_out dev F_CPU fuel commands.home t).bind fun _ t =>
  command_out dev F_CPU fuel (commands.dd_addr 0) t

/-- The traversal of `string_out(const char*)`: the buffer is the list of
character codes from the pointer on; the traversal stops at the first NUL and returns the buffer
from there.  The end of the list stands for the end of the buffer. -/
def string_out (dev : Trace → Nat) (F_CPU fuel : Nat) : List Nat → Trace → Res (List Nat)
  | [], t => Res.done [] t
  | c :: rest, t =>
    if c = 0 then Res.done (c :: rest) t
    else (data_out dev F_CPU fuel c t).bind fun _ t => string_out dev F_CPU fuel rest t

end lcd

/-! ## Observers on a recorded trace -/

/-- Values passed to `write(pins.data, ·)`, in order. -/
def busWrites : Trace → List Nat
  | [] => []
  | Ev.write Pin.data v :: t => v :: busWrites t
  | _ :: t => busWrites t

/-- Values returned by `read(pins.data)`, in order. -/
def sampled : Trace → List Nat
  | [] => []
  | Ev.read Pin.data v :: t => v :: sampled t
  | _ :: t => sampled t

/-- Levels of the control lines and the value driven on the data bus, as set by
the recorded pin operations. -/
structure Lines where
  e : Bool
  rw : Bool
  rs : Bool
  bus : Nat
  deriving DecidableEq, Repr

namespace Lines

def step (s : Lines) : Ev → Lines
  | Ev.set Pin.e => { s with e := true }
  | Ev.reset Pin.e => { s with e := false }
  | Ev.set Pin.rw => { s with rw := true }
  | Ev.reset Pin.rw => { s with rw := false }
  | Ev.set Pin.rs => { s with rs := true }
  | Ev.reset Pin.rs => { s with rs := false }
  | Ev.write Pin.data v => { s with bus := v }
  | _ => s

end Lines

/-- A nibble transfer on the bus: `wr rs v` is the nibble `v` latched by a
falling Enable edge with Read/Write low, `rd rs v` is the nibble `v` sampled by
the host; `rs` is the level of Register-Select at that moment. -/
inductive Xfer
  | wr (rs : Bool) (v : Nat)
  | rd (rs : Bool) (v : Nat)
  deriving DecidableEq, Repr

def Lines.emit (s : Lines) : Ev → List Xfer
  | Ev.reset Pin.e => if s.e && !s.rw then [Xfer.wr s.rs s.bus] else []
  | Ev.read Pin.data v => [Xfer.rd s.rs v]
  | _ => []

/-- The nibble transfers of a trace replayed from line levels `s`. -/
def xfersFrom : Lines → Trace → List Xfer
  | _, [] => []
  | s, ev :: t => s.emit ev ++ xfersFrom (s.step ev) t

/-- The status byte assembled from a high and a low nibble sample, as `inbyte`
assembles it. -/
def statusOf (s : Nat × Nat) : Nat :=
  ((s.1 <<< 4) % 256) ||| s.2

def isBusy (s : Nat × Nat) : Bool :=
  statusOf s &&& lcd.BUSY_FLAG != 0

/-- A completed busy-poll: a non-empty run of status reads of which the last,
and only the last, has the busy flag clear. -/
def pollUntilReady : List (Nat × Nat) → Bool
  | [] => false
  | [s] => !isBusy s
  | s :: rest => isBusy s && pollUntilReady rest

/-- The nibble transfers of a run of status reads: two samples each with
Register-Select low. -/
def pollXfers : List (Nat × Nat) → List Xfer
  | [] => []
  | s :: rest => Xfer.rd false s.1 :: Xfer.rd false s.2 :: pollXfers rest

/-- The nibble transfers of one byte written to register `rs`. -/
def byteXfers (rs : Bool) (b : Nat) : List Xfer :=
  [Xfer.wr rs (b >>> 4), Xfer.wr rs (b &&& 0x0f)]

/-! ## A simulated controller -/

/-- Modelled from the spec: the simulated controller behind the recording pin
interface of the test harness, which is not part of the driver source.  It
follows the control lines, pairs the nibbles latched on falling Enable edges
into bytes, keeps the last byte written to the command register, and answers a
status read with that byte, its top bit replaced by the busy flag.  After each
command byte it reports busy for the next `N` status reads (`N = 0`: the busy
bit is always masked to 0). -/
structure Ctl where
  e : Bool := false
  rw : Bool := false
  rs : Bool := false
  bus : Nat := 0
  hi : Option Nat := none
  cmd : Nat := 0
  low : Bool := false
  busy : Nat := 0
  deriving DecidableEq, Repr

namespace Ctl

/-- Modelled from the spec: reaction of the simulated controller to one
recorded pin operation. -/
def step (N : Nat) (c : Ctl) : Ev → Ctl
  | Ev.set Pin.e => { c with e := true }
  | Ev.set Pin.rw => { c with rw := true }
  | Ev.reset Pin.rw => { c with rw := false }
  | Ev.set Pin.rs => { c with rs := true }
  | Ev.reset Pin.rs => { c with rs := false }
  | Ev.write Pin.data v => { c with bus := v % 16 }
  | Ev.reset Pin.e =>
    if c.e then
      if c.rw then
        if c.low then
          { c with e := false, low := false, busy := if c.rs then c.busy else c.busy - 1 }
        else { c with e := false, low := true }
      else
        match c.hi with
        | none => { c with e := false, hi := some c.bus }
        | some h =>
          if c.rs then { c with e := false, hi := none }
          else { c with e := false, hi := none, cmd := 16 * h + c.bus, busy := N }
    else c
  | _ => c

/-- Modelled from the spec: the status byte a command-register read returns. -/
def status (c : Ctl) : Nat :=
  (if c.busy = 0 then 0 else 0x80) ||| (c.cmd &&& 0x7f)

/-- Modelled from the spec: the nibble the simulated controller drives on the
data lines: the high, then the low nibble of the status byte while Enable and
Read/Write are high and Register-Select is low, otherwise 0. -/
def out (c : Ctl) : Nat :=
  if c.e && c.rw && !c.rs then
    if c.low then c.status &&& 0x0f else c.status >>> 4
  else 0

end Ctl

/-- Modelled from the spec: state of the simulated controller after a trace. -/
def ctlAfter (N : Nat) (t : Trace) : Ctl :=
  t.foldl (Ctl.step N) {}

/-- Modelled from the spec: the simulated pin interface backed by the simulated
controller; a `read` of the data pins returns what the controller drives. -/
def simDev (N : Nat) (t : Trace) : Nat :=
  (ctlAfter N t).out

/-- High and low nibble of a status byte. -/
def nibblesOf (st : Nat) : Nat × Nat :=
  (st >>> 4, st &&& 0x0f)

/-- Modelled from the spec: the status reads the simulated controller answers
while it has `k` busy polls left and its command register holds `cmd`: `k`
reads with the busy flag set, then one with it clear. -/
def simPoll (cmd : Nat) : Nat → List (Nat × Nat)
  | 0 => [nibblesOf (0 ||| (cmd &&& 0x7f))]
  | k + 1 => nibblesOf (0x80 ||| (cmd &&& 0x7f)) :: simPoll cmd k

/-! ## Events of the primitives -/

def rsEv (set_rs : Bool) : Ev :=
  if set_rs then Ev.set Pin.rs else Ev.reset Pin.rs

def outnibbleEvs (F_CPU nibble : Nat) : List Ev :=
  [Ev.reset Pin.rw, Ev.write Pin.data nibble, Ev.set Pin.e]
    ++ lcd.delay_500ns F_CPU ++ [Ev.reset Pin.e]

def innibbleEvs (F_CPU v : Nat) : List Ev :=
  [Ev.set Pin.rw, Ev.make_input [Pin.data], Ev.set Pin.e]
    ++ lcd.delay_500ns F_CPU
    ++ [Ev.read Pin.data v, Ev.reset Pin.e, Ev.make_output [Pin.data]]

def inbyteEvs (F_CPU : Nat) (rs : Bool) (s : Nat × Nat) : List Ev :=
  rsEv rs :: (innibbleEvs F_CPU s.1 ++ innibbleEvs F_CPU s.2)

def pollEvs (F_CPU : Nat) : List (Nat × Nat) → List Ev
  | [] => []
  | s :: rest => inbyteEvs F_CPU false s ++ pollEvs F_CPU rest

def outbyteEvs (F_CPU : Nat) (rs : Bool) (b : Nat) : List Ev :=
  rsEv rs :: (outnibbleEvs F_CPU (b >>> 4) ++ outnibbleEvs F_CPU (b &&& 0x0f))

/-- The part of `init` before its first busy-poll. -/
def initHeadEvs (F_CPU : Nat) : List Ev :=
  [Ev.make_output [Pin.e, Pin.rw, Pin.rs, Pin.data], Ev.reset Pin.rs, Ev.delay_ms 15]
    ++ outnibbleEvs F_CPU 0x03 ++ [Ev.delay_ms double_4_1]
    ++ outnibbleEvs F_CPU 0x03 ++ [Ev.delay_ms double_0_1]
    ++ outnibbleEvs F_CPU 0x03 ++ outnibbleEvs F_CPU 0x02

/-- A piece of a trace after `init`'s head: one byte written to a register, or
one status read. -/
inductive Chunk
  | out (rs : Bool) (b : Nat)
  | status (s : Nat × Nat)

def Chunk.evs (F_CPU : Nat) : Chunk → List Ev
  | Chunk.out rs b => outbyteEvs F_CPU rs b
  | Chunk.status s => inbyteEvs F_CPU false s

def chunksEvs (F_CPU : Nat) : List Chunk → List Ev
  | [] => []
  | c :: cs => c.evs F_CPU ++ chunksEvs F_CPU cs

/-- The call extends the trace `t` by byte writes and status reads only. -/
def Chunked {α : Type} (F_CPU : Nat) (t : Trace) (r : Res α) : Prop :=
  ∃ cs, r.trace = t ++ chunksEvs F_CPU cs

/-! ## Timed delays between bus writes -/

/-- Duration of a recorded delay step in nanoseconds at clock frequency
`F_CPU` Hz: a timed delay lasts its amount, a no-op one clock cycle. -/
def Ev.durationNs (F_CPU : Nat) : Ev → ℚ
  | Ev.delay_ms ms => ms * 1000000
  | Ev.delay_us us => us * 1000
  | Ev.nop => 1000000000 / F_CPU
  | _ => 0

/-- Enable as seen by the pulse check: low, or high with a flag telling whether
a delay step of non-zero duration was recorded since it was set. -/
inductive Pulse
  | idle
  | high (delayed : Bool)
  deriving DecidableEq, Repr

/-- One step of the pulse check; `none` is a violation: Enable set while
high, or reset while low or before any delay step of non-zero duration. -/
def pulseStep (F_CPU : Nat) : Pulse → Ev → Option Pulse
  | Pulse.idle, Ev.set Pin.e => some (Pulse.high false)
  | Pulse.idle, Ev.reset Pin.e => none
  | Pulse.idle, _ => some Pulse.idle
  | Pulse.high _, Ev.set Pin.e => none
  | Pulse.high d, Ev.reset Pin.e => if d then some Pulse.idle else none
  | Pulse.high d, ev => some (Pulse.high (d || decide (0 < ev.durationNs F_CPU)))

def pulseRun (F_CPU : Nat) : Pulse → Trace → Option Pulse
  | p, [] => some p
  | p, ev :: t =>
    match pulseStep F_CPU p ev with
    | none => none
    | some q => pulseRun F_CPU q t

/-- Every set of Enable is followed by a reset of Enable, with a delay step of
non-zero duration and no other set of Enable in between, and Enable is never
reset without such a set. -/
def enablePulsesOk (F_CPU : Nat) (t : Trace) : Bool :=
  pulseRun F_CPU Pulse.idle t == some Pulse.idle

/-- A run of byte transactions to one register, as `init`, `cls` and
`string_out` issue them. -/
def bytesOut (dev : Trace → Nat) (F_CPU fuel : Nat) (rs : Bool) : List Nat → Trace → Res Unit
  | [], t => Res.done () t
  | b :: bs, t =>
    (lcd.outbyte dev F_CPU fuel b rs t).bind fun _ t => bytesOut dev F_CPU fuel rs bs t

/-- Events of a run of byte transactions, each byte with the status reads of
its busy-poll. -/
def txnEvs (F_CPU : Nat) (rs : Bool) : List (Nat × List (Nat × Nat)) → List Ev
  | [] => []
  | x :: rest => outbyteEvs F_CPU rs x.1 ++ pollEvs F_CPU x.2 ++ txnEvs F_CPU rs rest

/-- Nibble transfers of a run of byte transactions to register `rs`: for each
byte its high nibble, its low nibble, then the status reads of its busy-poll. -/
def txnXfers (rs : Bool) : List (Nat × List (Nat × Nat)) → List Xfer
  | [] => []
  | x :: rest => byteXfers rs x.1 ++ pollXfers x.2 ++ txnXfers rs rest

/-- The samples taken before the first nibble is written. -/
def readsBefore : List Xfer → List Nat
  | Xfer.rd _ v :: xs => v :: readsBefore xs
  | _ => []

/-- Total duration of the delay steps of a trace, in nanoseconds, at clock
frequency `F_CPU` Hz. -/
def totalNs (F_CPU : Nat) : Trace → ℚ
  | [] => 0
  | ev :: t => ev.durationNs F_CPU + totalNs F_CPU t

/-! ## Ranges of the command encoders -/

/-- The highest set bit of `b` is bit `k`. -/
def topBitIs (k b : Nat) : Bool :=
  decide (2 ^ k ≤ b) && decide (b < 2 ^ (k + 1))

/-- The sets of bytes the command encoders produce, in the order `clr`, `home`,
`entry_mode`, `display_control`, `shift`, `function_set`, `cg_addr`,
`dd_addr`. -/
def encoderRanges : List (Nat → Prop) :=
  [fun b => b = commands.clr,
   fun b => b = commands.home,
   fun b => ∃ i s, b = commands.entry_mode i s,
   fun b => ∃ d c k, b = commands.display_control d c k,
   fun b => ∃ s r, b = commands.shift s r,
   fun b => ∃ i t f, b = commands.function_set i t f,
   fun b => ∃ a, b = commands.cg_addr a,
   fun b => ∃ a, b = commands.dd_addr a]

/-- The set of bytes the `k`-th command encoder produces (empty from 8 on). -/
def producedBy (k : Nat) : Nat → Prop :=
  encoderRanges.getD k (fun _ => False)

/-! ## Properties that every operation preserves -/

/-- A property `P` of the events an operation appends that is kept by the way
the driver is built: it holds of no events, of concatenations, of the events
of a byte read, and of the events of a byte write when the byte is `good`. -/
structure Compositional (F_CPU : Nat) (good : Nat → Prop) (P : Trace → Prop) : Prop where
  nil : P []
  append : ∀ a b, P a → P b → P (a ++ b)
  inbyte : ∀ rs s, P (inbyteEvs F_CPU rs s)
  outbyte : ∀ rs b, good b → P (outbyteEvs F_CPU rs b)

/-- The call extends the trace `t` by events satisfying `P`. -/
def Extends {α : Type} (P : Trace → Prop) (t : Trace) (r : Res α) : Prop :=
  ∃ u, r.trace = t ++ u ∧ P u

/-- A monitor run over a trace: `step` gives the next monitor state, or `none`
on a violation. -/
def runMon {σ : Type} (step : σ → Ev → Option σ) : σ → Trace → Option σ
  | q, [] => some q
  | q, ev :: t =>
    match step q ev with
    | none => none
    | some q2 => runMon step q2 t

/-! ## Direction of the data pins -/

/-- Direction of the data pin group as configured by the recorded pin
operations: output, input, or input with Enable just deasserted (the next pin
operation has to restore the output direction). -/
inductive Dir
  | output
  | input
  | released
  deriving DecidableEq, Repr

/-- One step of the direction check; `none` is a violation: a write to the
data pins while they are an input, a read of them while they are an output, or
anything but making them an output again right after Enable is deasserted
while they are an input. -/
def dirStep (d : Dir) (ev : Ev) : Option Dir :=
  match d with
  | Dir.released =>
    match ev with
    | Ev.make_output g => if Pin.data ∈ g then some Dir.output else none
    | _ => none
  | Dir.output =>
    match ev with
    | Ev.make_input g => if Pin.data ∈ g then some Dir.input else some Dir.output
    | Ev.read Pin.data _ => none
    | _ => some Dir.output
  | Dir.input =>
    match ev with
    | Ev.make_output g => if Pin.data ∈ g then some Dir.output else some Dir.input
    | Ev.write Pin.data _ => none
    | Ev.reset Pin.e => some Dir.released
    | _ => some Dir.input

/-- Started with the data pins in direction `d`, the trace passes the direction
check and leaves the data pins configured as output. -/
def directionOk (d : Dir) (t : Trace) : Bool :=
  runMon dirStep d t == some Dir.output

/-! ## Runs of status reads -/

/-- The status bytes returned by `k` consecutive calls of `command_in`, the
first of them made at trace `t`. -/
def statusReads (dev : Trace → Nat) (F_CPU : Nat) : Nat → Trace → List Nat
  | 0, _ => []
  | k + 1, t =>
    (lcd.command_in dev F_CPU t).1 :: statusReads dev F_CPU k (lcd.command_in dev F_CPU t).2

/-- Every status read of the device has the busy flag set, whatever was
recorded before. -/
def AlwaysBusy (dev : Trace → Nat) (F_CPU : Nat) : Prop :=
  ∀ t, (lcd.command_in dev F_CPU t).1 &&& lcd.BUSY_FLAG ≠ 0

/-! ## The pin sequence of a nibble read -/

/-- Position within the pin sequence of one nibble read: outside of it, after
Read/Write was set, after the bus was made an input, after Enable was set (with
the delay steps of `delay_500ns` still to come), after the sample, after
Enable was reset. -/
inductive Frame
  | outside
  | rwHigh
  | busInput
  | enabled (pending : List Ev)
  | sampled
  | lowered
  deriving DecidableEq

/-- One step of the read-sequence check; `none` is a violation.  A read of the
data pins, a `make_input` or a set of Read/Write is accepted only as part of
the sequence: set Read/Write, make the data pins inputs, set Enable, the delay
steps of `delay_500ns`, read the data pins, reset Enable, make the data pins
outputs. -/
def frameStep (F_CPU : Nat) (q : Frame) (ev : Ev) : Option Frame :=
  match q with
  | Frame.outside =>
    match ev with
    | Ev.set Pin.rw => some Frame.rwHigh
    | Ev.read _ _ => none
    | Ev.make_input _ => none
    | _ => some Frame.outside
  | Frame.rwHigh =>
    match ev with
    | Ev.make_input [Pin.data] => some Frame.busInput
    | _ => none
  | Frame.busInput =>
    match ev with
    | Ev.set Pin.e => some (Frame.enabled (lcd.delay_500ns F_CPU))
    | _ => none
  | Frame.enabled (d :: ds) => if ev = d then some (Frame.enabled ds) else none
  | Frame.enabled [] =>
    match ev with
    | Ev.read Pin.data _ => some Frame.sampled
    | _ => none
  | Frame.sampled =>
    match ev with
    | Ev.reset Pin.e => some Frame.lowered
    | _ => none
  | Frame.lowered =>
    match ev with
    | Ev.make_output [Pin.data] => some Frame.outside
    | _ => none

/-- Every read of the data pins in the trace is part of a complete nibble-read
pin sequence. -/
def readFramesOk (F_CPU : Nat) (t : Trace) : Bool :=
  runMon (frameStep F_CPU) Frame.outside t == some Frame.outside

/-- What the sample check tracks: the levels of Enable and Read/Write, whether
the data pins are inputs, and the time in nanoseconds since Enable was set. -/
structure SampleCtx where
  e : Bool
  rw : Bool
  input : Bool
  sinceE : ℚ

/-- One step of the sample check; `none` is a violation: a read of the data
pins while Enable or Read/Write is low, while the pins are outputs, or less
than 500 ns after Enable was set. -/
def sampleStep (F_CPU : Nat) (c : SampleCtx) (ev : Ev) : Option SampleCtx :=
  match ev with
  | Ev.set Pin.e => some { c with e := true, sinceE := 0 }
  | Ev.reset Pin.e => some { c with e := false }
  | Ev.set Pin.rw => some { c with rw := true }
  | Ev.reset Pin.rw => some { c with rw := false }
  | Ev.make_input g => some { c with input := c.input || decide (Pin.data ∈ g) }
  | Ev.make_output g => some { c with input := c.input && !decide (Pin.data ∈ g) }
  | Ev.read Pin.data _ =>
    if c.e && c.rw && c.input && decide (500 ≤ c.sinceE) then some c else none
  | ev => some { c with sinceE := c.sinceE + ev.durationNs F_CPU }

/-- Every read of the data pins in the trace passes the sample check, from
whatever levels the trace starts. -/
def samplesOk (F_CPU : Nat) (t : Trace) : Prop :=
  ∀ c, (runMon (sampleStep F_CPU) c t).isSome = true

/-! ## A busy flag that eventually clears -/

/-- The trace after `k` consecutive calls of `command_in`, the first of them
made at trace `t`. -/
def afterStatusReads (dev : Trace → Nat) (F_CPU : Nat) : Nat → Trace → Trace
  | 0, t => t
  | k + 1, t => afterStatusReads dev F_CPU k (lcd.command_in dev F_CPU t).2

/-- From trace `t` on, the controller reports busy (status bit 7 set) on
exactly its next `N` status reads and not busy on the one after. -/
def BusyFor (dev : Trace → Nat) (F_CPU N : Nat) (t : Trace) : Prop :=
  ∃ busy ready, statusReads dev F_CPU (N + 1) t = busy ++ [ready] ∧
    (∀ x ∈ busy, x &&& lcd.BUSY_FLAG ≠ 0) ∧ ready &&& lcd.BUSY_FLAG = 0

/-- The busy flag eventually clears after each of the bytes `bs` written to
register `rs` from trace `t` on: once the two nibbles of the first byte are
written, the controller reports busy on finitely many status reads and then
not busy, and from the trace after those status reads the same holds of the
bytes that follow. -/
def ClearsAfterEach (dev : Trace → Nat) (F_CPU : Nat) (rs : Bool) : List Nat → Trace → Prop
  | [], _ => True
  | b :: bs, t =>
    ∃ N, BusyFor dev F_CPU N (t ++ outbyteEvs F_CPU rs b) ∧
      ClearsAfterEach dev F_CPU rs bs
        (afterStatusReads dev F_CPU (N + 1) (t ++ outbyteEvs F_CPU rs b))

/-- The busy flag eventually clears during `init` called at trace `t`: after
the mode-switch nibble the controller reports busy on finitely many status
reads and then not busy, and after that the busy flag eventually clears after
each of the six commands `init` sends. -/
def ClearsDuringInit (dev : Trace → Nat) (F_CPU : Nat) (t : Trace) : Prop :=
  ∃ N, BusyFor dev F_CPU N (t ++ initHeadEvs F_CPU) ∧
    ClearsAfterEach dev F_CPU false
      [commands.function_set false true false, commands.display_control false false false,
        commands.clr, commands.entry_mode true false,
        commands.display_control true false false, commands.function_set false true false]
      (afterStatusReads dev F_CPU (N + 1) (t ++ initHeadEvs F_CPU))

/-- The two samples `inbyte` takes. -/
def inbyteSamples (dev : Trace → Nat) (F : Nat) (rs : Bool) (t : Trace) : Nat × Nat :=
  ((lcd.innibble dev F (t ++ [rsEv rs])).1,
   (lcd.innibble dev F (lcd.innibble dev F (t ++ [rsEv rs])).2).1)

/-! ## Basic facts about the primitives -/

theorem outnibble_eq (F v : Nat) (t : Trace) :
    lcd.outnibble F v t = t ++ outnibbleEvs F v := by
  simp [lcd.outnibble, outnibbleEvs]

theorem innibble_eq (dev : Trace → Nat) (F : Nat) (t : Trace) :
    lcd.innibble dev F t =
      ((lcd.innibble dev F t).1, t ++ innibbleEvs F (lcd.innibble dev F t).1) := by
  simp [lcd.innibble, innibbleEvs]

theorem innibble_lt (dev : Trace → Nat) (F : Nat) (t : Trace) :
    (lcd.innibble dev F t).1 < 256 := by
  simp only [lcd.innibble]
  exact Nat.mod_lt _ (by norm_num)

theorem inbyte_eq (dev : Trace → Nat) (F : Nat) (rs : Bool) (t : Trace) :
    lcd.inbyte dev F rs t =
      (statusOf (inbyteSamples dev F rs t), t ++ inbyteEvs F rs (inbyteSamples dev F rs t)) := by
  have h1 := innibble_eq dev F (t ++ [rsEv rs])
  have h2 := innibble_eq dev F (lcd.innibble dev F (t ++ [rsEv rs])).2
  simp only [lcd.inbyte, inbyteSamples, statusOf, inbyteEvs, rsEv] at *
  rw [Prod.mk.injEq]
  refine ⟨rfl, ?_⟩
  rw [h2]
  simp only
  rw [h1]
  simp

theorem wait_ready_succ (dev : Trace → Nat) (F fuel : Nat) (t : Trace) :
    lcd.wait_ready dev F (fuel + 1) t =
      if isBusy (inbyteSamples dev F false t) = true then
        lcd.wait_ready dev F fuel (t ++ inbyteEvs F false (inbyteSamples dev F false t))
      else Res.done () (t ++ inbyteEvs F false (inbyteSamples dev F false t)) := by
  rw [lcd.wait_ready]
  simp only [lcd.command_in]
  rw [inbyte_eq]
  simp [isBusy]

theorem wait_ready_trace (dev : Trace → Nat) (F fuel : Nat) (t : Trace) :
    ∃ p, (lcd.wait_ready dev F fuel t).trace = t ++ pollEvs F p := by
  induction fuel generalizing t with
  | zero => exact ⟨[], by simp [lcd.wait_ready, Res.trace, pollEvs]⟩
  | succ n ih =>
    rw [wait_ready_succ]
    split
    · obtain ⟨p, hp⟩ := ih (t ++ inbyteEvs F false (inbyteSamples dev F false t))
      exact ⟨inbyteSamples dev F false t :: p, by rw [hp]; simp [pollEvs]⟩
    · exact ⟨[inbyteSamples dev F false t], by simp [Res.trace, pollEvs]⟩

theorem wait_ready_done (dev : Trace → Nat) (F fuel : Nat) (t u : Trace)
    (h : lcd.wait_ready dev F fuel t = Res.done () u) :
    ∃ p, pollUntilReady p = true ∧ p.length ≤ fuel ∧ u = t ++ pollEvs F p := by
  induction fuel generalizing t with
  | zero => simp [lcd.wait_ready] at h
  | succ n ih =>
    rw [wait_ready_succ] at h
    split at h
    · rename_i hb
      obtain ⟨p, hp, hl, hu⟩ := ih _ h
      refine ⟨inbyteSamples dev F false t :: p, ?_, by simpa using hl, by rw [hu]; simp [pollEvs]⟩
      cases p with
      | nil => simp [pollUntilReady] at hp
      | cons a q => simp [pollUntilReady, hb, hp]
    · rename_i hb
      simp only [Res.done.injEq, true_and] at h
      exact ⟨[inbyteSamples dev F false t], by simpa [pollUntilReady] using hb, by simp,
        by rw [← h]; simp [pollEvs]⟩

theorem wait_ready_mono (dev : Trace → Nat) (F k m : Nat) (t u : Trace)
    (h : lcd.wait_ready dev F k t = Res.done () u) (hkm : k ≤ m) :
    lcd.wait_ready dev F m t = Res.done () u := by
  induction k generalizing t m with
  | zero => simp [lcd.wait_ready] at h
  | succ n ih =>
    obtain ⟨m, rfl⟩ : ∃ j, m = j + 1 := ⟨m - 1, by omega⟩
    rw [wait_ready_succ] at h ⊢
    split
    · rename_i hb
      rw [if_pos hb] at h
      exact ih _ _ h (by omega)
    · rename_i hb
      rw [if_neg hb] at h
      exact h

/-! ## Facts about the observers -/

theorem busWrites_append (a b : Trace) : busWrites (a ++ b) = busWrites a ++ busWrites b := by
  induction a using busWrites.induct with
  | case1 => simp [busWrites]
  | case2 v t ih => simp [busWrites, ih]
  | case3 ev t hne ih =>
    rw [List.cons_append, busWrites, busWrites, ih]
    · exact hne
    · exact hne

theorem sampled_append (a b : Trace) : sampled (a ++ b) = sampled a ++ sampled b := by
  induction a using sampled.induct with
  | case1 => simp [sampled]
  | case2 v t ih => simp [sampled, ih]
  | case3 ev t hne ih =>
    rw [List.cons_append, sampled, sampled, ih]
    · exact hne
    · exact hne

theorem xfersFrom_append (s : Lines) (a b : Trace) :
    xfersFrom s (a ++ b) = xfersFrom s a ++ xfersFrom (a.foldl Lines.step s) b := by
  induction a generalizing s with
  | nil => simp [xfersFrom]
  | cons ev t ih => simp [xfersFrom, ih]

theorem delay_500ns_cases (F : Nat) :
    lcd.delay_500ns F = [Ev.delay_us 0.5] ∨ lcd.delay_500ns F = [Ev.nop] ∨
      lcd.delay_500ns F = [Ev.nop, Ev.nop] ∨
      lcd.delay_500ns F = [Ev.nop, Ev.nop, Ev.nop, Ev.nop] := by
  unfold lcd.delay_500ns
  split
  · exact Or.inl rfl
  · split
    · split
      · exact Or.inr (Or.inr (Or.inr rfl))
      · exact Or.inr (Or.inr (Or.inl rfl))
    · exact Or.inr (Or.inl rfl)

theorem busWrites_outnibbleEvs (F v : Nat) : busWrites (outnibbleEvs F v) = [v] := by
  rcases delay_500ns_cases F with h | h | h | h <;> simp [outnibbleEvs, h, busWrites]

theorem busWrites_innibbleEvs (F v : Nat) : busWrites (innibbleEvs F v) = [] := by
  rcases delay_500ns_cases F with h | h | h | h <;> simp [innibbleEvs, h, busWrites]

theorem busWrites_rsEv (rs : Bool) : busWrites [rsEv rs] = [] := by
  cases rs <;> simp [rsEv, busWrites]

theorem busWrites_inbyteEvs (F : Nat) (rs : Bool) (s : Nat × Nat) :
    busWrites (inbyteEvs F rs s) = [] := by
  have h := busWrites_rsEv rs
  rw [inbyteEvs, ← List.singleton_append, busWrites_append, busWrites_append, h,
    busWrites_innibbleEvs, busWrites_innibbleEvs]
  rfl

theorem busWrites_pollEvs (F : Nat) (p : List (Nat × Nat)) : busWrites (pollEvs F p) = [] := by
  induction p with
  | nil => simp [pollEvs, busWrites]
  | cons s rest ih => simp [pollEvs, busWrites_append, busWrites_inbyteEvs, ih]

theorem busWrites_outbyteEvs (F : Nat) (rs : Bool) (b : Nat) :
    busWrites (outbyteEvs F rs b) = [b >>> 4, b &&& 0x0f] := by
  have h := busWrites_rsEv rs
  rw [outbyteEvs, ← List.singleton_append, busWrites_append, busWrites_append, h,
    busWrites_outnibbleEvs, busWrites_outnibbleEvs]
  rfl

theorem xfers_outnibbleEvs (s : Lines) (F v : Nat) :
    xfersFrom s (outnibbleEvs F v) = [Xfer.wr s.rs v] ∧
      (outnibbleEvs F v).foldl Lines.step s = { s with e := false, rw := false, bus := v } := by
  rcases delay_500ns_cases F with h | h | h | h <;>
    simp [outnibbleEvs, h, xfersFrom, Lines.emit, Lines.step]

theorem xfers_innibbleEvs (s : Lines) (F v : Nat) :
    xfersFrom s (innibbleEvs F v) = [Xfer.rd s.rs v] ∧
      (innibbleEvs F v).foldl Lines.step s = { s with e := false, rw := true } := by
  rcases delay_500ns_cases F with h | h | h | h <;>
    simp [innibbleEvs, h, xfersFrom, Lines.emit, Lines.step]

theorem xfersFrom_cons (s : Lines) (ev : Ev) (t : Trace) :
    xfersFrom s (ev :: t) = s.emit ev ++ xfersFrom (s.step ev) t := rfl

theorem step_rsEv (s : Lines) (rs : Bool) :
    Lines.step s (rsEv rs) = { s with rs := rs } ∧ Lines.emit s (rsEv rs) = [] := by
  cases rs <;> simp [rsEv, Lines.step, Lines.emit]

theorem xfers_inbyteEvs (s : Lines) (F : Nat) (rs : Bool) (p : Nat × Nat) :
    xfersFrom s (inbyteEvs F rs p) = [Xfer.rd rs p.1, Xfer.rd rs p.2] ∧
      (inbyteEvs F rs p).foldl Lines.step s = { s with e := false, rw := true, rs := rs } := by
  obtain ⟨hs, he⟩ := step_rsEv s rs
  have h1 := xfers_innibbleEvs { s with rs := rs } F p.1
  have h2 := xfers_innibbleEvs { e := false, rw := true, rs := rs, bus := s.bus } F p.2
  simp only at h1 h2
  simp only [inbyteEvs, xfersFrom_cons, List.foldl_cons, List.foldl_append, xfersFrom_append, hs, he,
    h1.1, h1.2, h2.1, h2.2]
  simp

theorem xfers_pollEvs (s : Lines) (F : Nat) (p : List (Nat × Nat)) :
    xfersFrom s (pollEvs F p) = pollXfers p := by
  induction p generalizing s with
  | nil => simp [pollEvs, pollXfers, xfersFrom]
  | cons a rest ih =>
    simp [pollEvs, pollXfers, xfersFrom_append, (xfers_inbyteEvs s F false a).1, ih]

theorem xfers_outbyteEvs (s : Lines) (F : Nat) (rs : Bool) (b : Nat) :
    xfersFrom s (outbyteEvs F rs b) = byteXfers rs b ∧
      (outbyteEvs F rs b).foldl Lines.step s =
        { e := false, rw := false, rs := rs, bus := b &&& 0x0f } := by
  obtain ⟨hs, he⟩ := step_rsEv s rs
  have h1 := xfers_outnibbleEvs { s with rs := rs } F (b >>> 4)
  have h2 := xfers_outnibbleEvs { e := false, rw := false, rs := rs, bus := b >>> 4 } F
    (b &&& 0x0f)
  simp only at h1 h2
  simp only [outbyteEvs, byteXfers, xfersFrom_cons, List.foldl_cons, List.foldl_append,
    xfersFrom_append, hs, he, h1.1, h1.2, h2.1, h2.2]
  simp

/-! ## Bit arithmetic on bytes -/

theorem and_15_eq_mod (b : Nat) : b &&& 0x0f = b % 16 :=
  Nat.and_pow_two_sub_one_eq_mod b 4

theorem and_127_eq_mod (b : Nat) : b &&& 0x7f = b % 128 :=
  Nat.and_pow_two_sub_one_eq_mod b 7

theorem shiftRight_4_eq_div (b : Nat) : b >>> 4 = b / 16 :=
  Nat.shiftRight_eq_div_pow b 4

theorem nibbles_join (b : Nat) : 16 * (b >>> 4) + (b &&& 0x0f) = b := by
  rw [and_15_eq_mod, shiftRight_4_eq_div]
  omega

set_option maxRecDepth 100000 in
theorem statusOf_split : ∀ st, st < 256 → statusOf (st >>> 4, st &&& 0x0f) = st := by
  decide

theorem statusOf_nibbles : ∀ h, h < 16 → ∀ l, l < 16 → statusOf (h, l) = 16 * h + l := by
  decide

theorem busy_bit_of_high : ∀ h, h < 16 → ∀ l, l < 16 →
    (statusOf (h, l) &&& lcd.BUSY_FLAG ≠ 0 ↔ h.testBit 3 = true) := by
  decide

theorem status_lt (c : Ctl) : c.status < 256 := by
  unfold Ctl.status
  apply Nat.or_lt_two_pow (n := 8)
  · split <;> norm_num
  · exact Nat.and_lt_two_pow _ (by norm_num)

theorem status_busy_bit (c : Ctl) : (c.status &&& lcd.BUSY_FLAG != 0) = !(c.busy == 0) := by
  have h : ∀ y, y < 128 → ((0 ||| y) &&& 0x80 = 0 ∧ (0x80 ||| y) &&& 0x80 = 0x80) := by decide
  have hy : c.cmd &&& 0x7f < 128 := by rw [and_127_eq_mod]; omega
  obtain ⟨h0, h1⟩ := h _ hy
  unfold Ctl.status lcd.BUSY_FLAG
  by_cases hb : c.busy = 0
  · rw [if_pos hb, h0, hb]
    rfl
  · rw [if_neg hb, h1]
    simp [hb]

theorem status_low7 (c : Ctl) (hb : c.busy = 0) : c.status &&& 0x7f = c.cmd &&& 0x7f := by
  have h : ∀ y, y < 128 → (0 ||| y) &&& 0x7f = y := by decide
  have hy : c.cmd &&& 0x7f < 128 := by rw [and_127_eq_mod]; omega
  unfold Ctl.status
  rw [if_pos hb]
  exact h _ hy

/-! ## The simulated controller under the driver's primitives -/

theorem ctlAfter_append (N : Nat) (t u : Trace) :
    ctlAfter N (t ++ u) = u.foldl (Ctl.step N) (ctlAfter N t) := by
  simp [ctlAfter]

theorem ctl_delay (N F : Nat) (c : Ctl) : (lcd.delay_500ns F).foldl (Ctl.step N) c = c := by
  rcases delay_500ns_cases F with h | h | h | h <;> simp [h, Ctl.step]

theorem ctl_outbyteEvs (N F b : Nat) (c : Ctl) (hc : c.hi = none) :
    (outbyteEvs F false b).foldl (Ctl.step N) c =
      { c with e := false, rw := false, rs := false, bus := (b &&& 0x0f) % 16, hi := none,
               cmd := 16 * ((b >>> 4) % 16) + (b &&& 0x0f) % 16, busy := N } := by
  simp [outbyteEvs, outnibbleEvs, rsEv, List.foldl_append, ctl_delay, Ctl.step, hc]

theorem ctl_innibble_pre (N F : Nat) (c : Ctl) :
    (lcd.delay_500ns F).foldl (Ctl.step N)
      ([Ev.set Pin.rw, Ev.make_input [Pin.data], Ev.set Pin.e].foldl (Ctl.step N) c) =
      { c with e := true, rw := true } := by
  rw [ctl_delay]
  simp [Ctl.step]

theorem sim_innibble (N F : Nat) (t : Trace) (hrs : (ctlAfter N t).rs = false) :
    (lcd.innibble (simDev N) F t).1 =
      if (ctlAfter N t).low then (ctlAfter N t).status &&& 0x0f
      else (ctlAfter N t).status >>> 4 := by
  have hlt := status_lt (ctlAfter N t)
  have h1 : (ctlAfter N t).status &&& 0x0f < 256 := by rw [and_15_eq_mod]; omega
  have h2 : (ctlAfter N t).status >>> 4 < 256 := by rw [shiftRight_4_eq_div]; omega
  simp only [lcd.innibble, simDev, List.append_assoc, ctlAfter_append, List.foldl_append,
    ctl_innibble_pre]
  simp only [Ctl.out, hrs, Ctl.status]
  simp only [Ctl.status] at h1 h2
  cases hl : (ctlAfter N t).low <;> simp [Nat.mod_eq_of_lt, h1, h2]

theorem ctl_innibbleEvs (N F v : Nat) (c : Ctl) :
    (innibbleEvs F v).foldl (Ctl.step N) c =
      if c.low then
        { c with e := false, rw := true, low := false,
                 busy := if c.rs then c.busy else c.busy - 1 }
      else { c with e := false, rw := true, low := true } := by
  simp only [innibbleEvs, List.foldl_append, ctl_innibble_pre]
  cases hl : c.low <;> simp [Ctl.step, hl]

theorem ctl_inbyteEvs (N F : Nat) (s : Nat × Nat) (c : Ctl) (hl : c.low = false) :
    (inbyteEvs F false s).foldl (Ctl.step N) c =
      { c with e := false, rw := true, rs := false, busy := c.busy - 1 } := by
  simp [inbyteEvs, rsEv, List.foldl_append, ctl_innibbleEvs, Ctl.step, hl]

theorem sim_inbyteSamples (N F : Nat) (t : Trace) (hl : (ctlAfter N t).low = false) :
    inbyteSamples (simDev N) F false t =
      ((ctlAfter N t).status >>> 4, (ctlAfter N t).status &&& 0x0f) := by
  have e1 : ctlAfter N (t ++ [rsEv false]) = { ctlAfter N t with rs := false } := by
    simp [ctlAfter_append, rsEv, Ctl.step]
  have a1 := sim_innibble N F (t ++ [rsEv false]) (by rw [e1])
  have e2 : ctlAfter N (lcd.innibble (simDev N) F (t ++ [rsEv false])).2 =
      { ctlAfter N t with e := false, rw := true, rs := false, low := true } := by
    rw [innibble_eq, ctlAfter_append, ctl_innibbleEvs, e1]
    simp [hl]
  have a2 := sim_innibble N F (lcd.innibble (simDev N) F (t ++ [rsEv false])).2 (by rw [e2])
  rw [e1] at a1
  rw [e2] at a2
  simp only [inbyteSamples, a1, a2, hl, Ctl.status]
  simp

theorem sim_isBusy (N F : Nat) (t : Trace) (hl : (ctlAfter N t).low = false) :
    isBusy (inbyteSamples (simDev N) F false t) = !((ctlAfter N t).busy == 0) := by
  rw [sim_inbyteSamples N F t hl, isBusy, statusOf_split _ (status_lt _), status_busy_bit]

theorem sim_wait_ready (N F k extra : Nat) (t : Trace) (hl : (ctlAfter N t).low = false)
    (hb : (ctlAfter N t).busy = k) :
    lcd.wait_ready (simDev N) F (k + 1 + extra) t =
        Res.done () (t ++ pollEvs F (simPoll (ctlAfter N t).cmd k)) ∧
      ctlAfter N (t ++ pollEvs F (simPoll (ctlAfter N t).cmd k)) =
        { ctlAfter N t with e := false, rw := true, rs := false, busy := 0 } := by
  induction k generalizing t with
  | zero =>
    have hs : inbyteSamples (simDev N) F false t =
        nibblesOf (0 ||| ((ctlAfter N t).cmd &&& 0x7f)) := by
      rw [sim_inbyteSamples N F t hl]
      simp [Ctl.status, hb, nibblesOf]
    have hbusy := sim_isBusy N F t hl
    rw [hb] at hbusy
    refine ⟨?_, ?_⟩
    · rw [show 0 + 1 + extra = extra + 1 by omega, wait_ready_succ, hbusy, hs]
      simp [simPoll, pollEvs]
    · simp only [simPoll, pollEvs, List.append_nil]
      rw [ctlAfter_append, ctl_inbyteEvs N F _ _ hl, hb]
  | succ n ih =>
    have hs : inbyteSamples (simDev N) F false t =
        nibblesOf (0x80 ||| ((ctlAfter N t).cmd &&& 0x7f)) := by
      rw [sim_inbyteSamples N F t hl]
      simp [Ctl.status, hb, nibblesOf]
    have hbusy := sim_isBusy N F t hl
    rw [hb] at hbusy
    have hc : ctlAfter N (t ++ inbyteEvs F false (inbyteSamples (simDev N) F false t)) =
        { ctlAfter N t with e := false, rw := true, rs := false, busy := n } := by
      rw [ctlAfter_append, ctl_inbyteEvs N F _ _ hl, hb]
      simp
    obtain ⟨i1, i2⟩ := ih (t ++ inbyteEvs F false (inbyteSamples (simDev N) F false t))
      (by rw [hc]; exact hl) (by rw [hc])
    rw [hc] at i1 i2
    simp only at i1 i2
    rw [hs] at i1 i2
    refine ⟨?_, ?_⟩
    · rw [show n + 1 + 1 + extra = (n + 1 + extra) + 1 by omega, wait_ready_succ, hbusy]
      simp only [Nat.add_one_ne_zero, beq_iff_eq, Bool.not_eq_true', ↓reduceIte, hs,
        Bool.not_false, decide_False]
      rw [i1]
      simp [simPoll, pollEvs]
    · simp only [simPoll, pollEvs]
      rw [← List.append_assoc, i2]

theorem outbyte_eq (dev : Trace → Nat) (F fuel b : Nat) (rs : Bool) (t : Trace) :
    lcd.outbyte dev F fuel b rs t = lcd.wait_ready dev F fuel (t ++ outbyteEvs F rs b) := by
  simp [lcd.outbyte, outnibble_eq, outbyteEvs, rsEv]

theorem sim_cmd_low7 (b : Nat) :
    (16 * ((b >>> 4) % 16) + (b &&& 0x0f) % 16) &&& 0x7f = b &&& 0x7f := by
  rw [and_127_eq_mod, and_127_eq_mod, and_15_eq_mod, shiftRight_4_eq_div]
  omega

/-! ## Shape of the traces of the operations -/

theorem bind_done_unit (r : Res Unit) : (r.bind fun _ t => Res.done () t) = r := by
  cases r <;> rfl

theorem cls_eq (dev : Trace → Nat) (F fuel : Nat) (t : Trace) :
    lcd.cls dev F fuel t = bytesOut dev F fuel false [0x01, 0x02, 0x80] t := by
  have h : commands.dd_addr 0 = 0x80 := by decide
  simp only [lcd.cls, bytesOut, lcd.command_out, commands.clr, commands.home, h,
    bind_done_unit]

theorem init_eq (dev : Trace → Nat) (F fuel : Nat) (t : Trace) :
    lcd.init dev F fuel t =
      (lcd.wait_ready dev F fuel (t ++ initHeadEvs F)).bind fun _ t =>
        bytesOut dev F fuel false [0x28, 0x08, 0x01, 0x06, 0x0C, 0x28] t := by
  have h1 : commands.function_set false true false = 0x28 := by decide
  have h2 : commands.display_control false false false = 0x08 := by decide
  have h3 : commands.entry_mode true false = 0x06 := by decide
  have h4 : commands.display_control true false false = 0x0C := by decide
  have h5 : (0x28 : Nat) >>> 4 = 0x02 := by decide
  simp only [lcd.init, bytesOut, lcd.command_out, commands.clr, h1, h2, h3, h4, h5,
    bind_done_unit, outnibble_eq, initHeadEvs, List.append_assoc]
  rfl

theorem string_out_eq (dev : Trace → Nat) (F fuel : Nat) (s tail : List Nat) (t : Trace)
    (hs : ∀ c ∈ s, c ≠ 0) :
    lcd.string_out dev F fuel (s ++ 0 :: tail) t =
      (bytesOut dev F fuel true s t).bind fun _ t => Res.done (0 :: tail) t := by
  induction s generalizing t with
  | nil => simp [lcd.string_out, bytesOut, Res.bind]
  | cons c rest ih =>
    have hc : c ≠ 0 := hs c (by simp)
    have hr : ∀ x ∈ rest, x ≠ 0 := fun x hx => hs x (by simp [hx])
    simp only [List.cons_append, lcd.string_out, if_neg hc, bytesOut, lcd.data_out]
    cases h : lcd.outbyte dev F fuel c true t with
    | done a u => simp only [Res.bind]; exact ih u hr
    | spin u => simp [Res.bind]

theorem xfers_txnEvs (s : Lines) (F : Nat) (rs : Bool) (xs : List (Nat × List (Nat × Nat))) :
    xfersFrom s (txnEvs F rs xs) = txnXfers rs xs := by
  induction xs generalizing s with
  | nil => simp [txnEvs, txnXfers, xfersFrom]
  | cons x rest ih =>
    simp [txnEvs, txnXfers, xfersFrom_append, (xfers_outbyteEvs s F rs x.1).1, xfers_pollEvs, ih]

theorem chunksEvs_append (F : Nat) (a b : List Chunk) :
    chunksEvs F (a ++ b) = chunksEvs F a ++ chunksEvs F b := by
  induction a with
  | nil => simp [chunksEvs]
  | cons c cs ih => simp [chunksEvs, ih]

theorem chunksEvs_status (F : Nat) (p : List (Nat × Nat)) :
    chunksEvs F (p.map Chunk.status) = pollEvs F p := by
  induction p with
  | nil => simp [chunksEvs, pollEvs]
  | cons s rest ih => simp [chunksEvs, pollEvs, Chunk.evs, ih]

theorem chunked_done {α : Type} (F : Nat) (a : α) (t : Trace) : Chunked F t (Res.done a t) :=
  ⟨[], by simp [Res.trace, chunksEvs]⟩

theorem chunked_bind {α β : Type} (F : Nat) (t : Trace) (r : Res α) (f : α → Trace → Res β)
    (h1 : Chunked F t r) (h2 : ∀ a u, Chunked F u (f a u)) : Chunked F t (r.bind f) := by
  obtain ⟨cs, hcs⟩ := h1
  cases r with
  | done a u =>
    obtain ⟨cs2, h⟩ := h2 a u
    simp only [Res.trace] at hcs
    exact ⟨cs ++ cs2, by simp only [Res.bind]; rw [h, hcs, chunksEvs_append, List.append_assoc]⟩
  | spin u => exact ⟨cs, by simpa [Res.bind, Res.trace] using hcs⟩

theorem chunked_wait_ready (dev : Trace → Nat) (F fuel : Nat) (t : Trace) :
    Chunked F t (lcd.wait_ready dev F fuel t) := by
  obtain ⟨p, hp⟩ := wait_ready_trace dev F fuel t
  exact ⟨p.map Chunk.status, by rw [hp, chunksEvs_status]⟩

theorem chunked_outbyte (dev : Trace → Nat) (F fuel b : Nat) (rs : Bool) (t : Trace) :
    Chunked F t (lcd.outbyte dev F fuel b rs t) := by
  obtain ⟨p, hp⟩ := wait_ready_trace dev F fuel (t ++ outbyteEvs F rs b)
  exact ⟨Chunk.out rs b :: p.map Chunk.status, by
    rw [outbyte_eq, hp, chunksEvs, chunksEvs_status, Chunk.evs, List.append_assoc]⟩

theorem chunked_bytesOut (dev : Trace → Nat) (F fuel : Nat) (rs : Bool) (bs : List Nat)
    (t : Trace) : Chunked F t (bytesOut dev F fuel rs bs t) := by
  induction bs generalizing t with
  | nil => exact chunked_done F () t
  | cons b rest ih =>
    exact chunked_bind F t _ _ (chunked_outbyte dev F fuel b rs t) (fun _ u => ih u)

theorem chunked_cls (dev : Trace → Nat) (F fuel : Nat) (t : Trace) :
    Chunked F t (lcd.cls dev F fuel t) := by
  rw [cls_eq]
  exact chunked_bytesOut dev F fuel false _ t

theorem chunked_string_out (dev : Trace → Nat) (F fuel : Nat) (s : List Nat) (t : Trace) :
    Chunked F t (lcd.string_out dev F fuel s t) := by
  induction s generalizing t with
  | nil => exact chunked_done F _ t
  | cons c rest ih =>
    rw [lcd.string_out]
    split
    · exact chunked_done F _ t
    · exact chunked_bind F t _ _ (chunked_outbyte dev F fuel c true t) (fun _ u => ih u)

theorem init_trace (dev : Trace → Nat) (F fuel : Nat) (t : Trace) :
    ∃ cs, (lcd.init dev F fuel t).trace = t ++ (initHeadEvs F ++ chunksEvs F cs) := by
  obtain ⟨cs, h⟩ := chunked_bind F (t ++ initHeadEvs F) _ _
    (chunked_wait_ready dev F fuel (t ++ initHeadEvs F))
    (fun _ u => chunked_bytesOut dev F fuel false [0x28, 0x08, 0x01, 0x06, 0x0C, 0x28] u)
  exact ⟨cs, by rw [init_eq, h, List.append_assoc]⟩

/-! ## Settle delays of `init` -/

theorem busWrites_delay_500ns (F : Nat) : busWrites (lcd.delay_500ns F) = [] := by
  rcases delay_500ns_cases F with h | h | h | h <;> rw [h] <;> simp [busWrites]

theorem busWrites_initHead (F : Nat) : busWrites (initHeadEvs F) = [3, 3, 3, 2] := by
  simp [initHeadEvs, busWrites_append, busWrites_outnibbleEvs, busWrites,
    busWrites_delay_500ns]

theorem xfers_initHead (s : Lines) (F : Nat) :
    xfersFrom s (initHeadEvs F) =
        [Xfer.wr false 0x3, Xfer.wr false 0x3, Xfer.wr false 0x3, Xfer.wr false 0x2] := by
  have a := xfers_outnibbleEvs { s with rs := false } F 3
  have b := xfers_outnibbleEvs { e := false, rw := false, rs := false, bus := 3 } F 3
  have c := xfers_outnibbleEvs { e := false, rw := false, rs := false, bus := 3 } F 2
  simp only at a b c
  simp only [initHeadEvs, xfersFrom_append, List.foldl_append, xfersFrom_cons, List.cons_append,
    List.nil_append, List.foldl_cons, List.foldl_nil, Lines.step, Lines.emit, a.1, a.2, b.1, b.2,
    c.1]
  simp [xfersFrom]

theorem txn_bytes_wellformed (bs : List Nat) (ps : List (List (Nat × Nat)))
    (hb : ∀ b ∈ bs, b < 256) (hps : ∀ p ∈ ps, pollUntilReady p = true) :
    ∀ x ∈ bs.zip ps, x.1 < 256 ∧ pollUntilReady x.2 = true := by
  intro x hx
  obtain ⟨b, p⟩ := x
  exact ⟨hb b (List.of_mem_zip hx).1, hps p (List.of_mem_zip hx).2⟩

theorem simPoll_eq (cmd k : Nat) :
    simPoll cmd k = List.replicate k (nibblesOf (0x80 ||| (cmd &&& 0x7f)))
      ++ [nibblesOf (0 ||| (cmd &&& 0x7f))] := by
  induction k with
  | zero => simp [simPoll]
  | succ n ih => simp [simPoll, ih, List.replicate_succ]

theorem sim_outbyte (N F b fuel : Nat) (t : Trace) (hf : N + 1 ≤ fuel)
    (hhi : (ctlAfter N t).hi = none) (hlow : (ctlAfter N t).low = false) :
    lcd.outbyte (simDev N) F fuel b false t = Res.done ()
        (t ++ outbyteEvs F false b ++
          pollEvs F (simPoll (16 * ((b >>> 4) % 16) + (b &&& 0x0f) % 16) N)) ∧
      (ctlAfter N (t ++ outbyteEvs F false b ++
          pollEvs F (simPoll (16 * ((b >>> 4) % 16) + (b &&& 0x0f) % 16) N))).hi = none ∧
      (ctlAfter N (t ++ outbyteEvs F false b ++
          pollEvs F (simPoll (16 * ((b >>> 4) % 16) + (b &&& 0x0f) % 16) N))).low = false := by
  have hc := ctl_outbyteEvs N F b (ctlAfter N t) hhi
  rw [← ctlAfter_append] at hc
  obtain ⟨w1, w2⟩ := sim_wait_ready N F N (fuel - (N + 1)) (t ++ outbyteEvs F false b)
    (by rw [hc]; exact hlow) (by rw [hc])
  rw [show N + 1 + (fuel - (N + 1)) = fuel by omega] at w1
  have hcmd : (ctlAfter N (t ++ outbyteEvs F false b)).cmd =
      16 * ((b >>> 4) % 16) + (b &&& 0x0f) % 16 := by rw [hc]
  rw [hcmd] at w1 w2
  refine ⟨by rw [outbyte_eq]; exact w1, ?_, ?_⟩
  · rw [w2, hc]
  · rw [w2, hc]; exact hlow

theorem sim_cls (N F fuel : Nat) (t : Trace) (hf : N + 1 ≤ fuel)
    (hhi : (ctlAfter N t).hi = none) (hlow : (ctlAfter N t).low = false) :
    lcd.cls (simDev N) F fuel t = Res.done ()
      (t ++ txnEvs F false
        [(0x01, List.replicate N (8, 1) ++ [(0, 1)]),
         (0x02, List.replicate N (8, 2) ++ [(0, 2)]),
         (0x80, List.replicate N (8, 0) ++ [(0, 0)])]) := by
  obtain ⟨a1, a2, a3⟩ := sim_outbyte N F 0x01 fuel t hf hhi hlow
  obtain ⟨b1, b2, b3⟩ := sim_outbyte N F 0x02 fuel _ hf a2 a3
  obtain ⟨c1, _, _⟩ := sim_outbyte N F 0x80 fuel _ hf b2 b3
  have e1 : simPoll (16 * ((0x01 >>> 4) % 16) + (0x01 &&& 0x0f) % 16) N =
      List.replicate N (8, 1) ++ [(0, 1)] := by rw [simPoll_eq]; rfl
  have e2 : simPoll (16 * ((0x02 >>> 4) % 16) + (0x02 &&& 0x0f) % 16) N =
      List.replicate N (8, 2) ++ [(0, 2)] := by rw [simPoll_eq]; rfl
  have e3 : simPoll (16 * ((0x80 >>> 4) % 16) + (0x80 &&& 0x0f) % 16) N =
      List.replicate N (8, 0) ++ [(0, 0)] := by rw [simPoll_eq]; rfl
  rw [e1] at a1 b1 c1
  rw [e2] at b1 c1
  rw [e3] at c1
  rw [cls_eq, bytesOut, a1]
  simp only [Res.bind]
  rw [bytesOut, b1]
  simp only [Res.bind]
  rw [bytesOut, c1]
  simp only [Res.bind, bytesOut, txnEvs, List.append_assoc, List.append_nil]

theorem sampled_delay_500ns (F : Nat) : sampled (lcd.delay_500ns F) = [] := by
  rcases delay_500ns_cases F with h | h | h | h <;> rw [h] <;> simp [sampled]

theorem sampled_inbyteEvs (F : Nat) (rs : Bool) (p : Nat × Nat) :
    sampled (inbyteEvs F rs p) = [p.1, p.2] := by
  cases rs <;>
    simp [inbyteEvs, innibbleEvs, rsEv, sampled, sampled_append, sampled_delay_500ns]

/-! ## Enable pulses of the primitives -/

theorem pulseRun_append (F : Nat) (p : Pulse) (a b : Trace) :
    pulseRun F p (a ++ b) = (pulseRun F p a).bind fun q => pulseRun F q b := by
  induction a generalizing p with
  | nil => simp [pulseRun]
  | cons ev t ih =>
    simp only [List.cons_append, pulseRun]
    cases pulseStep F p ev with
    | none => simp
    | some q => simpa using ih q

theorem pulseRun_idle_append (F : Nat) (a b : Trace)
    (ha : pulseRun F Pulse.idle a = some Pulse.idle)
    (hb : pulseRun F Pulse.idle b = some Pulse.idle) :
    pulseRun F Pulse.idle (a ++ b) = some Pulse.idle := by
  rw [pulseRun_append, ha]
  simpa using hb

theorem nop_duration_pos (F : Nat) (hF : 0 < F) : 0 < Ev.durationNs F Ev.nop := by
  have h : (0 : ℚ) < F := by exact_mod_cast hF
  simp only [Ev.durationNs]
  positivity

theorem pulse_delay_500ns (F : Nat) (hF : 0 < F) (d : Bool) :
    pulseRun F (Pulse.high d) (lcd.delay_500ns F) = some (Pulse.high true) := by
  have hn := nop_duration_pos F hF
  have hu : 0 < Ev.durationNs F (Ev.delay_us 0.5) := by norm_num [Ev.durationNs]
  rcases delay_500ns_cases F with h | h | h | h <;> rw [h] <;>
    simp [pulseRun, pulseStep, hn, hu]

theorem pulse_outnibbleEvs (F v : Nat) (hF : 0 < F) :
    pulseRun F Pulse.idle (outnibbleEvs F v) = some Pulse.idle := by
  have h := pulse_delay_500ns F hF false
  simp [outnibbleEvs, pulseRun, pulseStep, pulseRun_append, h]

theorem pulse_innibbleEvs (F v : Nat) (hF : 0 < F) :
    pulseRun F Pulse.idle (innibbleEvs F v) = some Pulse.idle := by
  have h := pulse_delay_500ns F hF false
  simp [innibbleEvs, pulseRun, pulseStep, pulseRun_append, h]

theorem pulse_rsEv (F : Nat) (rs : Bool) :
    pulseRun F Pulse.idle [rsEv rs] = some Pulse.idle := by
  cases rs <;> simp [rsEv, pulseRun, pulseStep]

theorem pulse_outbyteEvs (F : Nat) (rs : Bool) (b : Nat) (hF : 0 < F) :
    pulseRun F Pulse.idle (outbyteEvs F rs b) = some Pulse.idle := by
  rw [outbyteEvs, ← List.singleton_append]
  exact pulseRun_idle_append F _ _ (pulse_rsEv F rs)
    (pulseRun_idle_append F _ _ (pulse_outnibbleEvs F _ hF) (pulse_outnibbleEvs F _ hF))

theorem pulse_inbyteEvs (F : Nat) (rs : Bool) (p : Nat × Nat) (hF : 0 < F) :
    pulseRun F Pulse.idle (inbyteEvs F rs p) = some Pulse.idle := by
  rw [inbyteEvs, ← List.singleton_append]
  exact pulseRun_idle_append F _ _ (pulse_rsEv F rs)
    (pulseRun_idle_append F _ _ (pulse_innibbleEvs F _ hF) (pulse_innibbleEvs F _ hF))

theorem pulse_chunksEvs (F : Nat) (cs : List Chunk) (hF : 0 < F) :
    pulseRun F Pulse.idle (chunksEvs F cs) = some Pulse.idle := by
  induction cs with
  | nil => simp [chunksEvs, pulseRun]
  | cons c rest ih =>
    rw [chunksEvs]
    refine pulseRun_idle_append F _ _ ?_ ih
    cases c with
    | out rs b => exact pulse_outbyteEvs F rs b hF
    | status p => exact pulse_inbyteEvs F false p hF

theorem pulse_initHeadEvs (F : Nat) (hF : 0 < F) :
    pulseRun F Pulse.idle (initHeadEvs F) = some Pulse.idle := by
  have a := pulse_outnibbleEvs F 3 hF
  have b := pulse_outnibbleEvs F 2 hF
  have e1 : pulseRun F Pulse.idle
      [Ev.make_output [Pin.e, Pin.rw, Pin.rs, Pin.data], Ev.reset Pin.rs, Ev.delay_ms 15] =
      some Pulse.idle := by simp [pulseRun, pulseStep]
  have e2 : pulseRun F Pulse.idle [Ev.delay_ms double_4_1] = some Pulse.idle := by
    simp [pulseRun, pulseStep]
  have e3 : pulseRun F Pulse.idle [Ev.delay_ms double_0_1] = some Pulse.idle := by
    simp [pulseRun, pulseStep]
  unfold initHeadEvs
  exact pulseRun_idle_append F _ _ (pulseRun_idle_append F _ _ (pulseRun_idle_append F _ _
    (pulseRun_idle_append F _ _ (pulseRun_idle_append F _ _ (pulseRun_idle_append F _ _ e1 a) e2)
      a) e3) a) b

theorem pulses_of_chunked {α : Type} (F : Nat) (hF : 0 < F) (t : Trace) (r : Res α)
    (h : Chunked F t r) : ∃ u, r.trace = t ++ u ∧ enablePulsesOk F u = true := by
  obtain ⟨cs, hcs⟩ := h
  exact ⟨_, hcs, by simp [enablePulsesOk, pulse_chunksEvs F cs hF]⟩

/-! ## Duration of `delay_500ns` -/

theorem totalNs_replicate_nop (F n : Nat) :
    totalNs F (List.replicate n Ev.nop) = n * (1000000000 / (F : ℚ)) := by
  induction n with
  | zero => simp [totalNs]
  | succ k ih =>
    rw [List.replicate_succ, totalNs, ih]
    simp only [Ev.durationNs]
    push_cast
    ring

theorem totalNs_nops_ge (F n : Nat) (hF : 0 < F) (hn : 500 * F ≤ n * 1000000000) :
    500 ≤ totalNs F (List.replicate n Ev.nop) := by
  have hq : (0 : ℚ) < F := by exact_mod_cast hF
  have hc : (500 : ℚ) * F ≤ n * 1000000000 := by exact_mod_cast hn
  rw [totalNs_replicate_nop, ← mul_div_assoc, le_div_iff₀ hq]
  exact hc

/-! ## Address encoders -/

theorem and_63_eq_mod (b : Nat) : b &&& 0x3f = b % 64 :=
  Nat.and_pow_two_sub_one_eq_mod b 6

theorem or_64_eq_add : ∀ y, y < 64 → 0x40 ||| y = 0x40 + y := by
  decide

set_option maxRecDepth 100000 in
theorem or_128_eq_add : ∀ y, y < 128 → 0x80 ||| y = 0x80 + y := by
  decide

theorem cg_addr_eq (a : Nat) : commands.cg_addr a = 0x40 + a % 64 := by
  rw [commands.cg_addr, and_63_eq_mod]
  exact or_64_eq_add _ (Nat.mod_lt _ (by norm_num))

theorem dd_addr_eq (a : Nat) : commands.dd_addr a = 0x80 + a % 128 := by
  rw [commands.dd_addr, and_127_eq_mod]
  exact or_128_eq_add _ (Nat.mod_lt _ (by norm_num))

theorem topBitIs_unique (j k b : Nat) (hj : topBitIs j b = true) (hk : topBitIs k b = true) :
    j = k := by
  simp only [topBitIs, Bool.and_eq_true, decide_eq_true_eq] at hj hk
  have h1 : 2 ^ j < 2 ^ (k + 1) := lt_of_le_of_lt hj.1 hk.2
  have h2 : 2 ^ k < 2 ^ (j + 1) := lt_of_le_of_lt hk.1 hj.2
  have a1 := (Nat.pow_lt_pow_iff_right (by norm_num : 1 < 2)).1 h1
  have a2 := (Nat.pow_lt_pow_iff_right (by norm_num : 1 < 2)).1 h2
  omega

theorem producedBy_topBit (k b : Nat) (h : producedBy k b) : topBitIs k b = true := by
  match k with
  | 0 => simp only [producedBy, encoderRanges, List.getD_cons_zero] at h; subst h; decide
  | 1 =>
    simp only [producedBy, encoderRanges, List.getD_cons_succ, List.getD_cons_zero] at h
    subst h; decide
  | 2 =>
    simp only [producedBy, encoderRanges, List.getD_cons_succ, List.getD_cons_zero] at h
    obtain ⟨i, s, rfl⟩ := h
    revert i s; decide
  | 3 =>
    simp only [producedBy, encoderRanges, List.getD_cons_succ, List.getD_cons_zero] at h
    obtain ⟨d, c, x, rfl⟩ := h
    revert d c x; decide
  | 4 =>
    simp only [producedBy, encoderRanges, List.getD_cons_succ, List.getD_cons_zero] at h
    obtain ⟨s, r, rfl⟩ := h
    revert s r; decide
  | 5 =>
    simp only [producedBy, encoderRanges, List.getD_cons_succ, List.getD_cons_zero] at h
    obtain ⟨i, t, f, rfl⟩ := h
    revert i t f; decide
  | 6 =>
    simp only [producedBy, encoderRanges, List.getD_cons_succ, List.getD_cons_zero] at h
    obtain ⟨a, rfl⟩ := h
    rw [cg_addr_eq]
    simp only [topBitIs, Bool.and_eq_true, decide_eq_true_eq]
    omega
  | 7 =>
    simp only [producedBy, encoderRanges, List.getD_cons_succ, List.getD_cons_zero] at h
    obtain ⟨a, rfl⟩ := h
    rw [dd_addr_eq]
    simp only [topBitIs, Bool.and_eq_true, decide_eq_true_eq]
    omega
  | n + 8 => simp [producedBy, encoderRanges] at h

/-! ## Properties kept by every operation -/

theorem extends_done {α : Type} {P : Trace → Prop} (hnil : P []) (a : α) (t : Trace) :
    Extends P t (Res.done a t) :=
  ⟨[], by simp [Res.trace], hnil⟩

theorem extends_bind {α β : Type} {P : Trace → Prop}
    (happ : ∀ a b, P a → P b → P (a ++ b)) (t : Trace) (r : Res α) (f : α → Trace → Res β)
    (h1 : Extends P t r) (h2 : ∀ a u, Extends P u (f a u)) : Extends P t (r.bind f) := by
  obtain ⟨u, hu, hp⟩ := h1
  cases r with
  | done a v =>
    obtain ⟨w, hw, hq⟩ := h2 a v
    simp only [Res.trace] at hu
    exact ⟨u ++ w, by simp only [Res.bind]; rw [hw, hu, List.append_assoc], happ u w hp hq⟩
  | spin v => exact ⟨u, by simpa [Res.bind, Res.trace] using hu, hp⟩

theorem compositional_pollEvs {F : Nat} {good : Nat → Prop} {P : Trace → Prop}
    (hP : Compositional F good P) (p : List (Nat × Nat)) : P (pollEvs F p) := by
  induction p with
  | nil => exact hP.nil
  | cons s rest ih => exact hP.append _ _ (hP.inbyte false s) ih

theorem extends_wait_ready {F : Nat} {good : Nat → Prop} {P : Trace → Prop}
    (hP : Compositional F good P) (dev : Trace → Nat) (fuel : Nat) (t : Trace) :
    Extends P t (lcd.wait_ready dev F fuel t) := by
  obtain ⟨p, hp⟩ := wait_ready_trace dev F fuel t
  exact ⟨_, hp, compositional_pollEvs hP p⟩

theorem extends_outbyte {F : Nat} {good : Nat → Prop} {P : Trace → Prop}
    (hP : Compositional F good P) (dev : Trace → Nat) (fuel b : Nat) (rs : Bool) (t : Trace)
    (hb : good b) : Extends P t (lcd.outbyte dev F fuel b rs t) := by
  obtain ⟨p, hp⟩ := wait_ready_trace dev F fuel (t ++ outbyteEvs F rs b)
  exact ⟨outbyteEvs F rs b ++ pollEvs F p, by rw [outbyte_eq, hp, List.append_assoc],
    hP.append _ _ (hP.outbyte rs b hb) (compositional_pollEvs hP p)⟩

theorem extends_bytesOut {F : Nat} {good : Nat → Prop} {P : Trace → Prop}
    (hP : Compositional F good P) (dev : Trace → Nat) (fuel : Nat) (rs : Bool)
    (bs : List Nat) (t : Trace) (hb : ∀ b ∈ bs, good b) :
    Extends P t (bytesOut dev F fuel rs bs t) := by
  induction bs generalizing t with
  | nil => exact extends_done hP.nil () t
  | cons b rest ih =>
    exact extends_bind hP.append t _ _
      (extends_outbyte hP dev fuel b rs t (hb b (by simp)))
      (fun _ u => ih u (fun x hx => hb x (by simp [hx])))

theorem extends_string_out {F : Nat} {good : Nat → Prop} {P : Trace → Prop}
    (hP : Compositional F good P) (dev : Trace → Nat) (fuel : Nat) (s : List Nat)
    (t : Trace) (hs : ∀ c ∈ s, good c) : Extends P t (lcd.string_out dev F fuel s t) := by
  induction s generalizing t with
  | nil => exact extends_done hP.nil _ t
  | cons c rest ih =>
    rw [lcd.string_out]
    split
    · exact extends_done hP.nil _ t
    · exact extends_bind hP.append t _ _
        (extends_outbyte hP dev fuel c true t (hs c (by simp)))
        (fun _ u => ih u (fun x hx => hs x (by simp [hx])))

theorem extends_cls {F : Nat} {good : Nat → Prop} {P : Trace → Prop}
    (hP : Compositional F good P) (hg : ∀ b, b < 256 → good b) (dev : Trace → Nat)
    (fuel : Nat) (t : Trace) : Extends P t (lcd.cls dev F fuel t) := by
  rw [cls_eq]
  refine extends_bytesOut hP dev fuel false _ t (fun b hb => hg b ?_)
  simp only [List.mem_cons, List.mem_singleton, List.not_mem_nil, or_false] at hb
  rcases hb with rfl | rfl | rfl <;> norm_num

theorem extends_init {F : Nat} {good : Nat → Prop} {P : Trace → Prop}
    (hP : Compositional F good P) (hg : ∀ b, b < 256 → good b) (dev : Trace → Nat)
    (fuel : Nat) (t : Trace) :
    ∃ u, (lcd.init dev F fuel t).trace = t ++ (initHeadEvs F ++ u) ∧ P u := by
  have h := extends_bind hP.append (t ++ initHeadEvs F) _ _
    (extends_wait_ready hP dev fuel (t ++ initHeadEvs F))
    (fun _ u => extends_bytesOut hP dev fuel false [0x28, 0x08, 0x01, 0x06, 0x0C, 0x28] u
      (fun b hb => hg b (by
        simp only [List.mem_cons, List.mem_singleton, List.not_mem_nil, or_false] at hb
        rcases hb with rfl | rfl | rfl | rfl | rfl | rfl <;> norm_num)))
  obtain ⟨u, hu, hp⟩ := h
  exact ⟨u, by rw [init_eq, hu, List.append_assoc], hp⟩

theorem extends_inbyte {F : Nat} {good : Nat → Prop} {P : Trace → Prop}
    (hP : Compositional F good P) (dev : Trace → Nat) (rs : Bool) (t : Trace) :
    ∃ u, (lcd.inbyte dev F rs t).2 = t ++ u ∧ P u :=
  ⟨_, by rw [inbyte_eq], hP.inbyte rs _⟩

theorem runMon_append {σ : Type} (step : σ → Ev → Option σ) (q : σ) (a b : Trace) :
    runMon step q (a ++ b) = (runMon step q a).bind fun r => runMon step r b := by
  induction a generalizing q with
  | nil => simp [runMon]
  | cons ev t ih =>
    simp only [List.cons_append, runMon]
    cases step q ev with
    | none => simp
    | some r => simpa using ih r

theorem runMon_cons {σ : Type} (step : σ → Ev → Option σ) (q : σ) (ev : Ev) (t : Trace) :
    runMon step q (ev :: t) = (step q ev).bind fun r => runMon step r t := by
  rw [runMon]
  cases step q ev <;> rfl

theorem runMon_loop_append {σ : Type} (step : σ → Ev → Option σ) (q : σ) (a b : Trace)
    (ha : runMon step q a = some q) (hb : runMon step q b = some q) :
    runMon step q (a ++ b) = some q := by
  rw [runMon_append, ha]
  simpa using hb

/-! ## Direction of the data pins under the primitives -/

theorem dir_delay_500ns (F : Nat) :
    runMon dirStep Dir.output (lcd.delay_500ns F) = some Dir.output ∧
      runMon dirStep Dir.input (lcd.delay_500ns F) = some Dir.input := by
  rcases delay_500ns_cases F with h | h | h | h <;> rw [h] <;> simp [runMon, dirStep]

theorem dir_outnibbleEvs (F v : Nat) :
    runMon dirStep Dir.output (outnibbleEvs F v) = some Dir.output := by
  have h := (dir_delay_500ns F).1
  simp [outnibbleEvs, runMon_cons, runMon_append, dirStep, h, runMon]

theorem dir_innibbleEvs (F v : Nat) :
    runMon dirStep Dir.output (innibbleEvs F v) = some Dir.output := by
  have h := (dir_delay_500ns F).2
  simp [innibbleEvs, runMon_cons, runMon_append, dirStep, h, runMon]

theorem dir_rsEv (rs : Bool) : runMon dirStep Dir.output [rsEv rs] = some Dir.output := by
  cases rs <;> simp [rsEv, runMon, dirStep]

theorem dir_compositional (F : Nat) :
    Compositional F (fun _ => True) (fun u => runMon dirStep Dir.output u = some Dir.output) where
  nil := rfl
  append := fun a b ha hb => runMon_loop_append dirStep Dir.output a b ha hb
  inbyte := fun rs s => by
    rw [inbyteEvs, ← List.singleton_append]
    exact runMon_loop_append _ _ _ _ (dir_rsEv rs)
      (runMon_loop_append _ _ _ _ (dir_innibbleEvs F _) (dir_innibbleEvs F _))
  outbyte := fun rs b _ => by
    rw [outbyteEvs, ← List.singleton_append]
    exact runMon_loop_append _ _ _ _ (dir_rsEv rs)
      (runMon_loop_append _ _ _ _ (dir_outnibbleEvs F _) (dir_outnibbleEvs F _))

theorem dir_initHeadEvs (F : Nat) :
    runMon dirStep Dir.output (initHeadEvs F) = some Dir.output ∧
      runMon dirStep Dir.input (initHeadEvs F) = some Dir.output := by
  have a := dir_outnibbleEvs F 3
  have b := dir_outnibbleEvs F 2
  simp [initHeadEvs, runMon_cons, runMon_append, dirStep, a, b]

/-! ## The busy-poll against a given run of status reads -/

theorem command_in_eq (dev : Trace → Nat) (F : Nat) (t : Trace) :
    lcd.command_in dev F t =
      (statusOf (inbyteSamples dev F false t),
        t ++ inbyteEvs F false (inbyteSamples dev F false t)) := by
  rw [lcd.command_in, inbyte_eq]

theorem statusReads_length (dev : Trace → Nat) (F k : Nat) (t : Trace) :
    (statusReads dev F k t).length = k := by
  induction k generalizing t with
  | zero => rfl
  | succ n ih => simp [statusReads, ih]

theorem isBusy_iff (s : Nat × Nat) : isBusy s = true ↔ statusOf s &&& lcd.BUSY_FLAG ≠ 0 := by
  simp [isBusy]

theorem wait_ready_exact (dev : Trace → Nat) (F N : Nat) (t : Trace) (busy : List Nat)
    (ready : Nat) (hs : statusReads dev F (N + 1) t = busy ++ [ready])
    (hb : ∀ x ∈ busy, x &&& lcd.BUSY_FLAG ≠ 0) (hr : ready &&& lcd.BUSY_FLAG = 0) :
    ∃ p, p.length = N + 1 ∧ p.map statusOf = busy ++ [ready] ∧ pollUntilReady p = true ∧
      (∀ fuel, N + 1 ≤ fuel → lcd.wait_ready dev F fuel t = Res.done () (t ++ pollEvs F p)) ∧
      (∀ fuel, fuel ≤ N → ∃ tr, lcd.wait_ready dev F fuel t = Res.spin tr) := by
  induction N generalizing t busy with
  | zero =>
    have hl := congrArg List.length hs
    simp only [statusReads_length, List.length_append, List.length_singleton] at hl
    have hbn : busy = [] := List.length_eq_zero.mp (by omega)
    subst hbn
    simp only [statusReads, command_in_eq, List.nil_append, List.cons.injEq, and_true] at hs
    have hnb : isBusy (inbyteSamples dev F false t) = false := by
      rw [← Bool.not_eq_true, isBusy_iff, hs]
      simpa using hr
    refine ⟨[inbyteSamples dev F false t], rfl, by simp [hs], by simp [pollUntilReady, hnb],
      ?_, ?_⟩
    · intro fuel hf
      obtain ⟨m, rfl⟩ : ∃ m, fuel = m + 1 := ⟨fuel - 1, by omega⟩
      rw [wait_ready_succ, hnb]
      simp [pollEvs]
    · intro fuel hf
      have : fuel = 0 := by omega
      subst this
      exact ⟨t, rfl⟩
  | succ n ih =>
    have hl := congrArg List.length hs
    simp only [statusReads_length, List.length_append, List.length_singleton] at hl
    cases busy with
    | nil => simp at hl
    | cons st rest =>
      rw [statusReads, command_in_eq] at hs
      simp only [List.cons_append, List.cons.injEq] at hs
      obtain ⟨hst, hrest⟩ := hs
      have hbusy : isBusy (inbyteSamples dev F false t) = true := by
        rw [isBusy_iff, hst]
        exact hb st (by simp)
      obtain ⟨p, hp1, hp2, hp3, hp4, hp5⟩ := ih _ rest hrest (fun x hx => hb x (by simp [hx]))
      refine ⟨inbyteSamples dev F false t :: p, by simp [hp1], by simp [hst, hp2], ?_, ?_, ?_⟩
      · cases p with
        | nil => simp at hp1
        | cons a q => simp [pollUntilReady, hbusy, hp3]
      · intro fuel hf
        obtain ⟨m, rfl⟩ : ∃ m, fuel = m + 1 := ⟨fuel - 1, by omega⟩
        rw [wait_ready_succ, hbusy, if_pos rfl, hp4 m (by omega)]
        simp [pollEvs]
      · intro fuel hf
        cases fuel with
        | zero => exact ⟨t, rfl⟩
        | succ m =>
          rw [wait_ready_succ, hbusy, if_pos rfl]
          exact hp5 m (by omega)

theorem wait_ready_always_busy (dev : Trace → Nat) (F : Nat) (hb : AlwaysBusy dev F)
    (fuel : Nat) (t : Trace) :
    ∃ p, p.length = fuel ∧ (∀ s ∈ p, isBusy s = true) ∧
      lcd.wait_ready dev F fuel t = Res.spin (t ++ pollEvs F p) := by
  induction fuel generalizing t with
  | zero => exact ⟨[], rfl, by simp, by simp [lcd.wait_ready, pollEvs]⟩
  | succ n ih =>
    have hbusy : isBusy (inbyteSamples dev F false t) = true := by
      have := hb t
      rw [command_in_eq] at this
      exact (isBusy_iff _).2 this
    obtain ⟨p, hl, hp, h⟩ := ih (t ++ inbyteEvs F false (inbyteSamples dev F false t))
    refine ⟨inbyteSamples dev F false t :: p, by simp [hl], ?_, ?_⟩
    · intro s hs
      rcases List.mem_cons.mp hs with rfl | hs
      · exact hbusy
      · exact hp s hs
    · rw [wait_ready_succ, hbusy, if_pos rfl, h]
      simp [pollEvs]

/-! ## The nibble-read pin sequence under the primitives -/

theorem frame_pending (F : Nat) (ds rest : Trace) :
    runMon (frameStep F) (Frame.enabled ds) (ds ++ rest) =
      runMon (frameStep F) (Frame.enabled []) rest := by
  induction ds with
  | nil => rfl
  | cons d ds ih =>
    rw [List.cons_append, runMon_cons]
    simp only [frameStep, if_true, Option.some_bind]
    exact ih

theorem frame_delay_500ns (F : Nat) :
    runMon (frameStep F) Frame.outside (lcd.delay_500ns F) = some Frame.outside := by
  rcases delay_500ns_cases F with h | h | h | h <;> rw [h] <;> simp [runMon, frameStep]

theorem frame_outnibbleEvs (F v : Nat) :
    runMon (frameStep F) Frame.outside (outnibbleEvs F v) = some Frame.outside := by
  have h := frame_delay_500ns F
  simp [outnibbleEvs, runMon_cons, runMon_append, frameStep, h, runMon]

theorem frame_innibbleEvs (F v : Nat) :
    runMon (frameStep F) Frame.outside (innibbleEvs F v) = some Frame.outside := by
  have h := frame_pending F (lcd.delay_500ns F)
    [Ev.read Pin.data v, Ev.reset Pin.e, Ev.make_output [Pin.data]]
  simp only [innibbleEvs, List.cons_append, List.nil_append, runMon_cons, frameStep,
    Option.some_bind, List.append_assoc, h]
  rfl

theorem frame_rsEv (F : Nat) (rs : Bool) :
    runMon (frameStep F) Frame.outside [rsEv rs] = some Frame.outside := by
  cases rs <;> simp [rsEv, runMon, frameStep]

theorem frame_compositional (F : Nat) :
    Compositional F (fun _ => True)
      (fun u => runMon (frameStep F) Frame.outside u = some Frame.outside) where
  nil := rfl
  append := fun a b ha hb => runMon_loop_append _ _ a b ha hb
  inbyte := fun rs s => by
    rw [inbyteEvs, ← List.singleton_append]
    exact runMon_loop_append _ _ _ _ (frame_rsEv F rs)
      (runMon_loop_append _ _ _ _ (frame_innibbleEvs F _) (frame_innibbleEvs F _))
  outbyte := fun rs b _ => by
    rw [outbyteEvs, ← List.singleton_append]
    exact runMon_loop_append _ _ _ _ (frame_rsEv F rs)
      (runMon_loop_append _ _ _ _ (frame_outnibbleEvs F _) (frame_outnibbleEvs F _))

theorem frame_initHeadEvs (F : Nat) :
    runMon (frameStep F) Frame.outside (initHeadEvs F) = some Frame.outside := by
  have a := frame_outnibbleEvs F 3
  have b := frame_outnibbleEvs F 2
  simp [initHeadEvs, runMon_cons, runMon_append, frameStep, a, b]

/-! ## Samples under the primitives -/

theorem delay_500ns_duration (F : Nat) (hF : 0 < F) :
    500 ≤ totalNs F (lcd.delay_500ns F) := by
  by_cases h4 : 4000000 < F
  · have e : lcd.delay_500ns F = [Ev.delay_us 0.5] := by simp [lcd.delay_500ns, h4]
    rw [e]
    norm_num [totalNs, Ev.durationNs]
  · by_cases h1 : 1000000 < F
    · by_cases h2 : 2000000 < F
      · have e : lcd.delay_500ns F = List.replicate 4 Ev.nop := by
          simp [lcd.delay_500ns, h4, h1, h2, List.replicate]
        rw [e]; exact totalNs_nops_ge F 4 hF (by omega)
      · have e : lcd.delay_500ns F = List.replicate 2 Ev.nop := by
          simp [lcd.delay_500ns, h4, h1, h2, List.replicate]
        rw [e]; exact totalNs_nops_ge F 2 hF (by omega)
    · have e : lcd.delay_500ns F = List.replicate 1 Ev.nop := by
        simp [lcd.delay_500ns, h4, h1, List.replicate]
      rw [e]; exact totalNs_nops_ge F 1 hF (by omega)

theorem sample_delays (F : Nat) (ds : Trace)
    (h : ∀ ev ∈ ds, ev = Ev.nop ∨ ev = Ev.delay_us 0.5) (c : SampleCtx) :
    runMon (sampleStep F) c ds = some { c with sinceE := c.sinceE + totalNs F ds } := by
  induction ds generalizing c with
  | nil => simp [runMon, totalNs]
  | cons d ds ih =>
    have hd := h d (by simp)
    have hrest : ∀ ev ∈ ds, ev = Ev.nop ∨ ev = Ev.delay_us 0.5 :=
      fun ev hev => h ev (by simp [hev])
    rw [runMon_cons]
    rcases hd with rfl | rfl
    · simp only [sampleStep, Option.some_bind]
      rw [ih hrest]
      simp [totalNs, add_assoc]
    · simp only [sampleStep, Option.some_bind]
      rw [ih hrest]
      simp [totalNs, add_assoc]

theorem delay_500ns_mem (F : Nat) :
    ∀ ev ∈ lcd.delay_500ns F, ev = Ev.nop ∨ ev = Ev.delay_us 0.5 := by
  rcases delay_500ns_cases F with h | h | h | h <;> rw [h] <;> simp

theorem samplesOk_append (F : Nat) (a b : Trace) (ha : samplesOk F a) (hb : samplesOk F b) :
    samplesOk F (a ++ b) := by
  intro c
  rw [runMon_append]
  cases h : runMon (sampleStep F) c a with
  | none => have := ha c; simp [h] at this
  | some r => simpa using hb r

theorem samplesOk_noRead (F : Nat) (u : Trace) (h : sampled u = []) : samplesOk F u := by
  induction u with
  | nil => intro c; rfl
  | cons ev rest ih =>
    have hne : ∀ v, ev ≠ Ev.read Pin.data v := by
      intro v hv
      rw [hv, sampled] at h
      simp at h
    have hrest : sampled rest = [] := by
      rw [sampled] at h
      · exact h
      · exact hne
    intro c
    rw [runMon_cons]
    have hstep : ∃ r, sampleStep F c ev = some r := by
      cases ev with
      | read p v => cases p <;> first | exact absurd rfl (hne v) | exact ⟨_, rfl⟩
      | set p => cases p <;> exact ⟨_, rfl⟩
      | reset p => cases p <;> exact ⟨_, rfl⟩
      | _ => exact ⟨_, rfl⟩
    obtain ⟨r, hr⟩ := hstep
    rw [hr]
    exact ih hrest r

theorem samplesOk_innibbleEvs (F v : Nat) (hF : 0 < F) : samplesOk F (innibbleEvs F v) := by
  intro c
  have hd := delay_500ns_duration F hF
  have hs := sample_delays F (lcd.delay_500ns F) (delay_500ns_mem F)
    { e := true, rw := true, input := c.input || decide (Pin.data ∈ [Pin.data]), sinceE := 0 }
  simp only [innibbleEvs, List.cons_append, List.nil_append, runMon_cons, sampleStep,
    Option.some_bind, runMon_append, hs]
  simp [hd, runMon]

theorem sampled_outbyteEvs (F : Nat) (rs : Bool) (b : Nat) :
    sampled (outbyteEvs F rs b) = [] := by
  cases rs <;>
    simp [outbyteEvs, outnibbleEvs, rsEv, sampled, sampled_append, sampled_delay_500ns]

theorem sampled_initHeadEvs (F : Nat) : sampled (initHeadEvs F) = [] := by
  simp [initHeadEvs, outnibbleEvs, sampled, sampled_append, sampled_delay_500ns]

theorem samples_compositional (F : Nat) (hF : 0 < F) :
    Compositional F (fun _ => True) (samplesOk F) where
  nil := fun _ => rfl
  append := samplesOk_append F
  inbyte := fun rs s => by
    rw [inbyteEvs, ← List.singleton_append]
    refine samplesOk_append F _ _ (samplesOk_noRead F _ ?_)
      (samplesOk_append F _ _ (samplesOk_innibbleEvs F _ hF) (samplesOk_innibbleEvs F _ hF))
    cases rs <;> simp [rsEv, sampled]
  outbyte := fun rs b _ => samplesOk_noRead F _ (sampled_outbyteEvs F rs b)

theorem compositional_and {F : Nat} {good : Nat → Prop} {P Q : Trace → Prop}
    (hP : Compositional F good P) (hQ : Compositional F good Q) :
    Compositional F good (fun u => P u ∧ Q u) where
  nil := ⟨hP.nil, hQ.nil⟩
  append := fun a b ha hb => ⟨hP.append a b ha.1 hb.1, hQ.append a b ha.2 hb.2⟩
  inbyte := fun rs s => ⟨hP.inbyte rs s, hQ.inbyte rs s⟩
  outbyte := fun rs b hb => ⟨hP.outbyte rs b hb, hQ.outbyte rs b hb⟩

/-! ## Values on the data bus -/

theorem nibbles_compositional (F : Nat) :
    Compositional F (fun b => b < 256) (fun u => ∀ v ∈ busWrites u, v < 16) where
  nil := by simp [busWrites]
  append := fun a b ha hb v hv => by
    rw [busWrites_append, List.mem_append] at hv
    rcases hv with h | h
    · exact ha v h
    · exact hb v h
  inbyte := fun rs s v hv => by
    rw [busWrites_inbyteEvs] at hv
    simp at hv
  outbyte := fun rs b hb v hv => by
    rw [busWrites_outbyteEvs, List.mem_cons, List.mem_singleton] at hv
    rcases hv with rfl | rfl
    · rw [shiftRight_4_eq_div]; omega
    · rw [and_15_eq_mod]; omega

theorem busWrites_outbyte_trace (dev : Trace → Nat) (F fuel b : Nat) (rs : Bool) (t : Trace) :
    ∃ u, (lcd.outbyte dev F fuel b rs t).trace = t ++ u ∧
      busWrites u = [b >>> 4, b &&& 0x0f] := by
  obtain ⟨p, hp⟩ := wait_ready_trace dev F fuel (t ++ outbyteEvs F rs b)
  refine ⟨outbyteEvs F rs b ++ pollEvs F p, by rw [outbyte_eq, hp, List.append_assoc], ?_⟩
  rw [busWrites_append, busWrites_outbyteEvs, busWrites_pollEvs, List.append_nil]

/-! ## Register-Select after an operation -/

theorem pollUntilReady_ne_nil (p : List (Nat × Nat)) (h : pollUntilReady p = true) : p ≠ [] := by
  intro hp
  subst hp
  simp [pollUntilReady] at h

theorem lines_pollEvs (F : Nat) (p : List (Nat × Nat)) (hp : p ≠ []) (ln : Lines) :
    ((pollEvs F p).foldl Lines.step ln).rs = false := by
  induction p generalizing ln with
  | nil => exact absurd rfl hp
  | cons s rest ih =>
    rw [pollEvs, List.foldl_append, (xfers_inbyteEvs ln F false s).2]
    cases rest with
    | nil => simp [pollEvs]
    | cons a q => exact ih (by simp) _

theorem lines_txnEvs (F : Nat) (rs : Bool) (xs : List (Nat × List (Nat × Nat)))
    (hne : xs ≠ []) (hp : ∀ x ∈ xs, x.2 ≠ []) (ln : Lines) :
    ((txnEvs F rs xs).foldl Lines.step ln).rs = false := by
  induction xs generalizing ln with
  | nil => exact absurd rfl hne
  | cons x rest ih =>
    rw [txnEvs, List.foldl_append, List.foldl_append]
    cases rest with
    | nil =>
      simp only [txnEvs, List.foldl_nil]
      exact lines_pollEvs F x.2 (hp x (by simp)) _
    | cons a q => exact ih (by simp) (fun y hy => hp y (by simp [hy])) _

theorem zip_polls_ne_nil (bs : List Nat) (ps : List (List (Nat × Nat)))
    (hps : ∀ p ∈ ps, pollUntilReady p = true) :
    ∀ x ∈ bs.zip ps, x.2 ≠ [] := by
  intro x hx
  obtain ⟨b, p⟩ := x
  exact pollUntilReady_ne_nil p (hps p (List.of_mem_zip hx).2)

theorem zip_ne_nil (bs : List Nat) (ps : List (List (Nat × Nat))) (hb : bs ≠ [])
    (hl : ps.length = bs.length) : bs.zip ps ≠ [] := by
  cases bs with
  | nil => exact absurd rfl hb
  | cons b rest =>
    cases ps with
    | nil => simp at hl
    | cons p q => simp

theorem lines_outbyte_poll (F b : Nat) (rs : Bool) (p : List (Nat × Nat))
    (hp : pollUntilReady p = true) (ln : Lines) :
    xfersFrom ln (outbyteEvs F rs b ++ pollEvs F p) = byteXfers rs b ++ pollXfers p ∧
      ((outbyteEvs F rs b ++ pollEvs F p).foldl Lines.step ln).rs = false ∧
      (outbyteEvs F rs b ++ pollEvs F p).head? = some (rsEv rs) := by
  refine ⟨?_, ?_, rfl⟩
  · rw [xfersFrom_append, (xfers_outbyteEvs ln F rs b).1, xfers_pollEvs]
  · rw [List.foldl_append]
    exact lines_pollEvs F p (pollUntilReady_ne_nil p hp) _

/-! ## Runs against a busy flag that eventually clears -/

theorem wait_ready_busyFor (dev : Trace → Nat) (F N : Nat) (t : Trace)
    (h : BusyFor dev F N t) :
    ∃ p, p.length = N + 1 ∧ pollUntilReady p = true ∧
      afterStatusReads dev F (N + 1) t = t ++ pollEvs F p ∧
      ∀ fuel, N + 1 ≤ fuel → lcd.wait_ready dev F fuel t = Res.done () (t ++ pollEvs F p) := by
  induction N generalizing t with
  | zero =>
    obtain ⟨busy, ready, hs, hb, hr⟩ := h
    have hl := congrArg List.length hs
    simp only [statusReads_length, List.length_append, List.length_singleton] at hl
    have hbn : busy = [] := List.length_eq_zero.mp (by omega)
    subst hbn
    simp only [statusReads, command_in_eq, List.nil_append, List.cons.injEq, and_true] at hs
    have hnb : isBusy (inbyteSamples dev F false t) = false := by
      rw [← Bool.not_eq_true, isBusy_iff, hs]
      simpa using hr
    refine ⟨[inbyteSamples dev F false t], rfl, by simp [pollUntilReady, hnb], ?_, ?_⟩
    · simp [afterStatusReads, command_in_eq, pollEvs]
    · intro fuel hf
      obtain ⟨m, rfl⟩ : ∃ m, fuel = m + 1 := ⟨fuel - 1, by omega⟩
      rw [wait_ready_succ, hnb]
      simp [pollEvs]
  | succ n ih =>
    obtain ⟨busy, ready, hs, hb, hr⟩ := h
    have hl := congrArg List.length hs
    simp only [statusReads_length, List.length_append, List.length_singleton] at hl
    cases busy with
    | nil => simp at hl
    | cons st rest =>
      rw [statusReads, command_in_eq] at hs
      simp only [List.cons_append, List.cons.injEq] at hs
      obtain ⟨hst, hrest⟩ := hs
      have hbusy : isBusy (inbyteSamples dev F false t) = true := by
        rw [isBusy_iff, hst]
        exact hb st (by simp)
      obtain ⟨p, hp1, hp3, hp4, hp5⟩ :=
        ih _ ⟨rest, ready, hrest, fun x hx => hb x (by simp [hx]), hr⟩
      refine ⟨inbyteSamples dev F false t :: p, by simp [hp1], ?_, ?_, ?_⟩
      · cases p with
        | nil => simp at hp1
        | cons a q => simp [pollUntilReady, hbusy, hp3]
      · rw [afterStatusReads, command_in_eq, hp4]
        simp [pollEvs]
      · intro fuel hf
        obtain ⟨m, rfl⟩ : ∃ m, fuel = m + 1 := ⟨fuel - 1, by omega⟩
        rw [wait_ready_succ, hbusy, if_pos rfl, hp5 m (by omega)]
        simp [pollEvs]

theorem busyFor_of_wait_done (dev : Trace → Nat) (F fuel : Nat) (t u : Trace)
    (h : lcd.wait_ready dev F fuel t = Res.done () u) :
    ∃ N, BusyFor dev F N t ∧ afterStatusReads dev F (N + 1) t = u := by
  induction fuel generalizing t with
  | zero => simp [lcd.wait_ready] at h
  | succ n ih =>
    rw [wait_ready_succ] at h
    split at h
    · rename_i hb
      obtain ⟨N, ⟨busy, ready, hs, hbs, hr⟩, ha⟩ := ih _ h
      refine ⟨N + 1, ⟨statusOf (inbyteSamples dev F false t) :: busy, ready, ?_, ?_, hr⟩, ?_⟩
      · rw [statusReads, command_in_eq]
        simp only [List.cons_append, List.cons.injEq, true_and]
        exact hs
      · intro x hx
        rcases List.mem_cons.mp hx with rfl | hx
        · exact (isBusy_iff _).1 hb
        · exact hbs x hx
      · rw [afterStatusReads, command_in_eq]
        exact ha
    · rename_i hb
      simp only [Res.done.injEq, true_and] at h
      refine ⟨0, ⟨[], statusOf (inbyteSamples dev F false t), ?_, by simp, ?_⟩, ?_⟩
      · simp [statusReads, command_in_eq]
      · have := (isBusy_iff (inbyteSamples dev F false t)).not.1 hb
        simpa using this
      · simp only [afterStatusReads, command_in_eq]
        exact h

theorem bytesOut_cons_done (dev : Trace → Nat) (F fuel b : Nat) (rs : Bool) (bs : List Nat)
    (t u : Trace) (h : bytesOut dev F fuel rs (b :: bs) t = Res.done () u) :
    ∃ v, lcd.wait_ready dev F fuel (t ++ outbyteEvs F rs b) = Res.done () v ∧
      bytesOut dev F fuel rs bs v = Res.done () u := by
  rw [bytesOut, outbyte_eq] at h
  cases hw : lcd.wait_ready dev F fuel (t ++ outbyteEvs F rs b) with
  | done a v =>
    rw [hw] at h
    exact ⟨v, rfl, h⟩
  | spin v =>
    rw [hw] at h
    simp [Res.bind] at h

theorem clears_of_bytesOut_done (dev : Trace → Nat) (F fuel : Nat) (rs : Bool) (bs : List Nat)
    (t u : Trace) (h : bytesOut dev F fuel rs bs t = Res.done () u) :
    ClearsAfterEach dev F rs bs t := by
  induction bs generalizing t with
  | nil => trivial
  | cons b rest ih =>
    obtain ⟨v, hw, hrest⟩ := bytesOut_cons_done dev F fuel b rs rest t u h
    obtain ⟨N, hN, ha⟩ := busyFor_of_wait_done dev F fuel _ v hw
    exact ⟨N, hN, by rw [ha]; exact ih v hrest⟩

theorem bytesOut_done_shape (dev : Trace → Nat) (F fuel : Nat) (rs : Bool) (bs : List Nat)
    (t u : Trace) (h : bytesOut dev F fuel rs bs t = Res.done () u) :
    ∃ ps, ps.length = bs.length ∧ (∀ p ∈ ps, pollUntilReady p = true) ∧
      u = t ++ txnEvs F rs (bs.zip ps) := by
  induction bs generalizing t with
  | nil =>
    simp only [bytesOut, Res.done.injEq, true_and] at h
    exact ⟨[], rfl, by simp, by simp [txnEvs, h]⟩
  | cons b rest ih =>
    obtain ⟨v, hw, hrest⟩ := bytesOut_cons_done dev F fuel b rs rest t u h
    obtain ⟨p, hp, _, hv⟩ := wait_ready_done dev F fuel _ v hw
    obtain ⟨ps, hl, hps, hu⟩ := ih v hrest
    refine ⟨p :: ps, by simp [hl], ?_, ?_⟩
    · intro q hq
      rcases List.mem_cons.mp hq with rfl | hq
      · exact hp
      · exact hps q hq
    · rw [hu, hv, List.zip_cons_cons]
      simp only [txnEvs, List.append_assoc]

theorem bytesOut_clears (dev : Trace → Nat) (F : Nat) (rs : Bool) (bs : List Nat) (t : Trace)
    (h : ClearsAfterEach dev F rs bs t) :
    ∃ k ps, ps.length = bs.length ∧ (∀ p ∈ ps, pollUntilReady p = true) ∧
      ∀ fuel, k ≤ fuel →
        bytesOut dev F fuel rs bs t = Res.done () (t ++ txnEvs F rs (bs.zip ps)) := by
  induction bs generalizing t with
  | nil => exact ⟨0, [], rfl, by simp, fun fuel _ => by simp [bytesOut, txnEvs]⟩
  | cons b rest ih =>
    obtain ⟨N, hN, hrest⟩ := h
    obtain ⟨p, _, hp, ha, h1⟩ := wait_ready_busyFor dev F N _ hN
    rw [ha] at hrest
    obtain ⟨k2, ps, hl, hps, h2⟩ := ih _ hrest
    refine ⟨max (N + 1) k2, p :: ps, by simp [hl], ?_, ?_⟩
    · intro q hq
      rcases List.mem_cons.mp hq with rfl | hq
      · exact hp
      · exact hps q hq
    · intro fuel hk
      rw [bytesOut, outbyte_eq, h1 fuel (le_of_max_le_left hk)]
      simp only [Res.bind]
      rw [h2 fuel (le_of_max_le_right hk), List.zip_cons_cons]
      simp only [txnEvs, List.append_assoc]

theorem init_commands_eq :
    [commands.function_set false true false, commands.display_control false false false,
      commands.clr, commands.entry_mode true false,
      commands.display_control true false false, commands.function_set false true false]
      = [0x28, 0x08, 0x01, 0x06, 0x0C, 0x28] := by
  decide

theorem cls_commands_eq :
    [commands.clr, commands.home, commands.dd_addr 0] = [0x01, 0x02, 0x80] :=
  rfl

theorem init_clears (dev : Trace → Nat) (F : Nat) (t : Trace)
    (h : ClearsDuringInit dev F t) :
    ∃ k p0 ps, pollUntilReady p0 = true ∧ ps.length = 6 ∧
      (∀ p ∈ ps, pollUntilReady p = true) ∧
      ∀ fuel, k ≤ fuel →
        lcd.init dev F fuel t = Res.done ()
          (t ++ (initHeadEvs F ++ pollEvs F p0 ++
            txnEvs F false ([0x28, 0x08, 0x01, 0x06, 0x0C, 0x28].zip ps))) := by
  obtain ⟨N, hN, hrest⟩ := h
  rw [init_commands_eq] at hrest
  obtain ⟨p0, _, hp0, ha, h1⟩ := wait_ready_busyFor dev F N _ hN
  rw [ha] at hrest
  obtain ⟨k2, ps, hl, hps, h2⟩ := bytesOut_clears dev F false _ _ hrest
  refine ⟨max (N + 1) k2, p0, ps, hp0, by simpa using hl, hps, ?_⟩
  intro fuel hk
  rw [init_eq, h1 fuel (le_of_max_le_left hk)]
  simp only [Res.bind]
  rw [h2 fuel (le_of_max_le_right hk)]
  simp only [List.append_assoc]

theorem init_done_shape (dev : Trace → Nat) (F fuel : Nat) (t u : Trace)
    (h : lcd.init dev F fuel t = Res.done () u) :
    ClearsDuringInit dev F t ∧
      ∃ p0 ps, pollUntilReady p0 = true ∧ ps.length = 6 ∧
        (∀ p ∈ ps, pollUntilReady p = true) ∧
        u = t ++ (initHeadEvs F ++ pollEvs F p0 ++
          txnEvs F false ([0x28, 0x08, 0x01, 0x06, 0x0C, 0x28].zip ps)) := by
  rw [init_eq] at h
  cases hw : lcd.wait_ready dev F fuel (t ++ initHeadEvs F) with
  | spin v =>
    rw [hw] at h
    simp [Res.bind] at h
  | done a v =>
    rw [hw] at h
    simp only [Res.bind] at h
    obtain ⟨N, hN, ha⟩ := busyFor_of_wait_done dev F fuel _ v hw
    obtain ⟨p0, hp0, _, hv⟩ := wait_ready_done dev F fuel _ v hw
    obtain ⟨ps, hl, hps, hu⟩ := bytesOut_done_shape dev F fuel false _ v u h
    refine ⟨⟨N, hN, ?_⟩, p0, ps, hp0, by simpa using hl, hps, ?_⟩
    · rw [init_commands_eq, ha]
      exact clears_of_bytesOut_done dev F fuel false _ v u h
    · rw [hu, hv]
      simp only [List.append_assoc]

theorem cls_clears (dev : Trace → Nat) (F : Nat) (t : Trace)
    (h : ClearsAfterEach dev F false [commands.clr, commands.home, commands.dd_addr 0] t) :
    ∃ k p1 p2 p3, pollUntilReady p1 = true ∧ pollUntilReady p2 = true ∧
      pollUntilReady p3 = true ∧
      ∀ fuel, k ≤ fuel →
        lcd.cls dev F fuel t = Res.done ()
          (t ++ txnEvs F false [(0x01, p1), (0x02, p2), (0x80, p3)]) := by
  rw [cls_commands_eq] at h
  obtain ⟨k, ps, hl, hps, hk⟩ := bytesOut_clears dev F false _ t h
  match ps, hl with
  | [p1, p2, p3], _ =>
    refine ⟨k, p1, p2, p3, hps p1 (by simp), hps p2 (by simp), hps p3 (by simp), ?_⟩
    intro fuel hf
    rw [cls_eq, hk fuel hf]
    rfl

theorem cls_done_clears (dev : Trace → Nat) (F fuel : Nat) (t u : Trace)
    (h : lcd.cls dev F fuel t = Res.done () u) :
    ClearsAfterEach dev F false [commands.clr, commands.home, commands.dd_addr 0] t := by
  rw [cls_eq] at h
  rw [cls_commands_eq]
  exact clears_of_bytesOut_done dev F fuel false _ t u h

/-! ## Runs against the simulated controller -/

theorem sim_init_clears : ClearsDuringInit (simDev 1) 8000000 [] := by
  have h : ∃ u, lcd.init (simDev 1) 8000000 2 [] = Res.done () u := ⟨_, rfl⟩
  obtain ⟨u, hu⟩ := h
  exact (init_done_shape (simDev 1) 8000000 2 [] u hu).1

theorem sim_cls_clears (N F : Nat) :
    ClearsAfterEach (simDev N) F false [commands.clr, commands.home, commands.dd_addr 0] [] :=
  cls_done_clears (simDev N) F (N + 1) [] _ (sim_cls N F (N + 1) [] (le_refl _) rfl rfl)

theorem sim_string_clears :
    ClearsAfterEach (simDev 2) 8000000 true [65, 66] (outbyteEvs 8000000 false 0x01) := by
  have h : ∃ u, bytesOut (simDev 2) 8000000 3 true [65, 66] (outbyteEvs 8000000 false 0x01)
      = Res.done () u := ⟨_, rfl⟩
  obtain ⟨u, hu⟩ := h
  exact clears_of_bytesOut_done _ _ _ _ _ _ u hu

theorem sim_data_returns :
    ∃ t2, lcd.data_out (simDev 2) 8000000 3 0x41 (outbyteEvs 8000000 false 0x01)
      = Res.done () t2 :=
  ⟨_, rfl⟩

theorem sim_data_busyFor :
    ∃ N, BusyFor (simDev 2) 8000000 N
      (outbyteEvs 8000000 false 0x01 ++ outbyteEvs 8000000 true 0x41) := by
  obtain ⟨t2, h⟩ := sim_data_returns
  rw [lcd.data_out, outbyte_eq] at h
  obtain ⟨N, hN, _⟩ := busyFor_of_wait_done _ _ _ _ t2 h
  exact ⟨N, hN⟩

theorem outbyte_done_shape (dev : Trace → Nat) (F fuel b : Nat) (rs : Bool) (t t2 : Trace)
    (h : lcd.outbyte dev F fuel b rs t = Res.done () t2) :
    ∃ p, pollUntilReady p = true ∧ t2 = t ++ (outbyteEvs F rs b ++ pollEvs F p) := by
  rw [outbyte_eq] at h
  obtain ⟨p, hp, _, hu⟩ := wait_ready_done dev F fuel _ t2 h
  exact ⟨p, hp, by rw [hu, List.append_assoc]⟩

theorem outbyte_returns (dev : Trace → Nat) (F b : Nat) (rs : Bool) (t : Trace)
    (h : ∃ N, BusyFor dev F N (t ++ outbyteEvs F rs b)) :
    ∃ k, ∀ fuel, k ≤ fuel → ∃ t2, lcd.outbyte dev F fuel b rs t = Res.done () t2 := by
  obtain ⟨N, hN⟩ := h
  obtain ⟨p, _, _, _, hw⟩ := wait_ready_busyFor dev F N _ hN
  exact ⟨N + 1, fun fuel hk => ⟨_, by rw [outbyte_eq, hw fuel hk]⟩⟩

theorem string_out_done_shape (dev : Trace → Nat) (F fuel : Nat) (s tail r : List Nat)
    (t t2 : Trace) (hs : ∀ c ∈ s, c ≠ 0)
    (h : lcd.string_out dev F fuel (s ++ 0 :: tail) t = Res.done r t2) :
    r = 0 :: tail ∧ bytesOut dev F fuel true s t = Res.done () t2 := by
  rw [string_out_eq dev F fuel s tail t hs] at h
  cases hb : bytesOut dev F fuel true s t with
  | done a v =>
    rw [hb] at h
    simp only [Res.bind, Res.done.injEq] at h
    exact ⟨h.1.symm, by rw [h.2]⟩
  | spin v =>
    rw [hb] at h
    simp [Res.bind] at h

/-! ## Properties of the specification -/

/-- C1: for every byte `b`, `write_command(b)` followed by `read_command()`,
run against the simulated controller that echoes the last written command byte
with the busy bit masked to 0, returns (one status read suffices for the
write's busy-poll) a value whose low 7 bits are the low 7 bits of `b`.  The
run may start after any recorded history that leaves the controller between
bytes. -/
theorem command_roundtrip_low7 (b F fuel : Nat) (t : Trace)
    (hf : 1 ≤ fuel) (hhi : (ctlAfter 0 t).hi = none) (hlow : (ctlAfter 0 t).low = false) :
    ∃ t1, lcd.command_out (simDev 0) F fuel b t = Res.done () t1 ∧
      (lcd.command_in (simDev 0) F t1).1 &&& 0x7f = b &&& 0x7f ∧
      (lcd.command_in (simDev 0) F t1).1 &&& lcd.BUSY_FLAG = 0 := by
  have hc := ctl_outbyteEvs 0 F b (ctlAfter 0 t) hhi
  rw [← ctlAfter_append] at hc
  obtain ⟨w1, w2⟩ := sim_wait_ready 0 F 0 (fuel - 1) (t ++ outbyteEvs F false b)
    (by rw [hc]; exact hlow) (by rw [hc])
  rw [show 0 + 1 + (fuel - 1) = fuel by omega] at w1
  refine ⟨_, by rw [lcd.command_out, outbyte_eq]; exact w1, ?_⟩
  have hl2 : (ctlAfter 0 (t ++ outbyteEvs F false b ++
      pollEvs F (simPoll (ctlAfter 0 (t ++ outbyteEvs F false b)).cmd 0))).low = false := by
    rw [w2, hc]; exact hlow
  have hbz : (ctlAfter 0 (t ++ outbyteEvs F false b ++
      pollEvs F (simPoll (ctlAfter 0 (t ++ outbyteEvs F false b)).cmd 0))).busy = 0 := by
    rw [w2]
  have hcmd : (ctlAfter 0 (t ++ outbyteEvs F false b ++
      pollEvs F (simPoll (ctlAfter 0 (t ++ outbyteEvs F false b)).cmd 0))).cmd =
      16 * ((b >>> 4) % 16) + (b &&& 0x0f) % 16 := by
    rw [w2, hc]
  have hst : (lcd.command_in (simDev 0) F (t ++ outbyteEvs F false b ++
      pollEvs F (simPoll (ctlAfter 0 (t ++ outbyteEvs F false b)).cmd 0))).1 =
      (ctlAfter 0 (t ++ outbyteEvs F false b ++
        pollEvs F (simPoll (ctlAfter 0 (t ++ outbyteEvs F false b)).cmd 0))).status := by
    rw [lcd.command_in, inbyte_eq, sim_inbyteSamples 0 F _ hl2]
    exact statusOf_split _ (status_lt _)
  rw [hst]
  refine ⟨?_, ?_⟩
  · rw [status_low7 _ hbz, hcmd, sim_cmd_low7]
  · have := status_busy_bit (ctlAfter 0 (t ++ outbyteEvs F false b ++
      pollEvs F (simPoll (ctlAfter 0 (t ++ outbyteEvs F false b)).cmd 0)))
    rw [hbz] at this
    simpa using this

theorem command_roundtrip_low7_witness :
    ∃ t1, lcd.command_out (simDev 0) 8000000 1 0xA7 [] = Res.done () t1 ∧
      (lcd.command_in (simDev 0) 8000000 t1).1 &&& 0x7f = 0xA7 &&& 0x7f ∧
      (lcd.command_in (simDev 0) 8000000 t1).1 &&& lcd.BUSY_FLAG = 0 :=
  command_roundtrip_low7 0xA7 8000000 1 [] (by decide) rfl rfl

/-- C2: for every byte `b` and either register kind, the values written to the
data bus by the byte transaction are exactly two, first the high nibble
`b >> 4`, then the low nibble `b & 0x0F`, with `16 * first + second = b`; the
busy-poll that follows writes nothing to the data bus.  This holds for every
poll budget, also for a run that is still polling. -/
theorem byte_high_nibble_first (dev : Trace → Nat) (F fuel b : Nat) (t : Trace) :
    busWrites (lcd.command_out dev F fuel b t).trace = busWrites t ++ [b >>> 4, b &&& 0x0f] ∧
      busWrites (lcd.data_out dev F fuel b t).trace = busWrites t ++ [b >>> 4, b &&& 0x0f] ∧
      16 * (b >>> 4) + (b &&& 0x0f) = b ∧
      busWrites (lcd.wait_ready dev F fuel t).trace = busWrites t := by
  have key : ∀ rs, busWrites (lcd.outbyte dev F fuel b rs t).trace =
      busWrites t ++ [b >>> 4, b &&& 0x0f] := by
    intro rs
    obtain ⟨p, hp⟩ := wait_ready_trace dev F fuel (t ++ outbyteEvs F rs b)
    rw [outbyte_eq, hp, busWrites_append, busWrites_append, busWrites_outbyteEvs,
      busWrites_pollEvs, List.append_nil]
  refine ⟨key false, key true, nibbles_join b, ?_⟩
  obtain ⟨p, hp⟩ := wait_ready_trace dev F fuel t
  rw [hp, busWrites_append, busWrites_pollEvs, List.append_nil]

/-- C4: in `initialize()`, against a controller whose busy flag eventually
clears (after the mode-switch nibble and after each command it reports busy on
finitely many status reads and then not busy), the nibble transfers are: the
three reset nibbles 0x3, then exactly one further single nibble carrying the
mode-switch value 0x2 = `function_set(false,true,false) >> 4`, then a busy-poll
that runs until a status read reports not busy, and after that poll only
two-nibble byte transactions (high nibble, low nibble of a byte, then its
completed busy-poll).  The call returns for every sufficiently large poll
budget. -/
theorem init_mode_switch_then_bytes (dev : Trace → Nat) (F : Nat) (t : Trace)
    (hc : ClearsDuringInit dev F t) :
    ∃ k p0 txns, pollUntilReady p0 = true ∧
      (∀ x ∈ txns, x.1 < 256 ∧ pollUntilReady x.2 = true) ∧
      commands.function_set false true false >>> 4 = 0x2 ∧
      ∀ fuel, k ≤ fuel → ∃ u, lcd.init dev F fuel t = Res.done () (t ++ u) ∧
        ∀ s, xfersFrom s u =
          [Xfer.wr false 0x3, Xfer.wr false 0x3, Xfer.wr false 0x3,
            Xfer.wr false (commands.function_set false true false >>> 4)]
            ++ pollXfers p0 ++ txnXfers false txns := by
  obtain ⟨k, p0, ps, hp0, _, hps, h⟩ := init_clears dev F t hc
  refine ⟨k, p0, [0x28, 0x08, 0x01, 0x06, 0x0C, 0x28].zip ps, hp0, ?_, by decide, ?_⟩
  · exact txn_bytes_wellformed _ _ (by decide) hps
  · intro fuel hk
    refine ⟨_, h fuel hk, fun s => ?_⟩
    rw [xfersFrom_append, xfersFrom_append, xfers_initHead, xfers_pollEvs, xfers_txnEvs]
    rfl

theorem init_mode_switch_then_bytes_witness :
    ∃ k p0 txns, pollUntilReady p0 = true ∧
      (∀ x ∈ txns, x.1 < 256 ∧ pollUntilReady x.2 = true) ∧
      commands.function_set false true false >>> 4 = 0x2 ∧
      ∀ fuel, k ≤ fuel → ∃ u, lcd.init (simDev 1) 8000000 fuel [] = Res.done () ([] ++ u) ∧
        ∀ s, xfersFrom s u =
          [Xfer.wr false 0x3, Xfer.wr false 0x3, Xfer.wr false 0x3,
            Xfer.wr false (commands.function_set false true false >>> 4)]
            ++ pollXfers p0 ++ txnXfers false txns :=
  init_mode_switch_then_bytes (simDev 1) 8000000 [] sim_init_clears

/-- C5: for any controller whose busy flag eventually clears after each command
(and after the mode-switch nibble), the full-byte transactions issued by
`initialize()` (after the four single nibbles and the first busy-poll) are
exactly six, all to the command register (Register-Select low), with bytes in
this order: 0x28 (4-bit, two lines, 5x8 font), 0x08 (display off), 0x01
(clear), 0x06 (entry mode increment, no shift), 0x0C (display on, cursor off,
blink off), 0x28 (function set repeated); each is followed by its completed
busy-poll.  The call returns for every sufficiently large poll budget. -/
theorem init_six_commands (dev : Trace → Nat) (F : Nat) (t : Trace)
    (hc : ClearsDuringInit dev F t) :
    ∃ k p0 ps, pollUntilReady p0 = true ∧ ps.length = 6 ∧
      (∀ p ∈ ps, pollUntilReady p = true) ∧
      [commands.function_set false true false, commands.display_control false false false,
        commands.clr, commands.entry_mode true false,
        commands.display_control true false false, commands.function_set false true false]
        = [0x28, 0x08, 0x01, 0x06, 0x0C, 0x28] ∧
      ∀ fuel, k ≤ fuel → ∃ u, lcd.init dev F fuel t = Res.done () (t ++ u) ∧
        ∀ s, xfersFrom s u =
          [Xfer.wr false 0x3, Xfer.wr false 0x3, Xfer.wr false 0x3, Xfer.wr false 0x2]
            ++ pollXfers p0
            ++ txnXfers false ([0x28, 0x08, 0x01, 0x06, 0x0C, 0x28].zip ps) := by
  obtain ⟨k, p0, ps, hp0, hl, hps, h⟩ := init_clears dev F t hc
  refine ⟨k, p0, ps, hp0, hl, hps, by decide, ?_⟩
  intro fuel hk
  refine ⟨_, h fuel hk, fun s => ?_⟩
  rw [xfersFrom_append, xfersFrom_append, xfers_initHead, xfers_pollEvs, xfers_txnEvs]

theorem init_six_commands_witness :
    ∃ k p0 ps, pollUntilReady p0 = true ∧ ps.length = 6 ∧
      (∀ p ∈ ps, pollUntilReady p = true) ∧
      [commands.function_set false true false, commands.display_control false false false,
        commands.clr, commands.entry_mode true false,
        commands.display_control true false false, commands.function_set false true false]
        = [0x28, 0x08, 0x01, 0x06, 0x0C, 0x28] ∧
      ∀ fuel, k ≤ fuel → ∃ u, lcd.init (simDev 1) 8000000 fuel [] = Res.done () ([] ++ u) ∧
        ∀ s, xfersFrom s u =
          [Xfer.wr false 0x3, Xfer.wr false 0x3, Xfer.wr false 0x3, Xfer.wr false 0x2]
            ++ pollXfers p0
            ++ txnXfers false ([0x28, 0x08, 0x01, 0x06, 0x0C, 0x28].zip ps) :=
  init_six_commands (simDev 1) 8000000 [] sim_init_clears

/-- C6: against a controller whose busy flag eventually clears after each of
the three commands (it reports busy on finitely many status reads, then not
busy), `clear()` issues exactly three command-register byte transactions, in
the order clear-display (0x01), home-cursor (0x02), set display-data address 0
(0x80), and after each of them polls the busy flag until a status read reports
not busy, before the next command is sent or the call returns.  The call
returns for every sufficiently large poll budget. -/
theorem cls_three_commands (dev : Trace → Nat) (F : Nat) (t : Trace)
    (hc : ClearsAfterEach dev F false [commands.clr, commands.home, commands.dd_addr 0] t) :
    ∃ k p1 p2 p3, pollUntilReady p1 = true ∧ pollUntilReady p2 = true ∧
      pollUntilReady p3 = true ∧
      [commands.clr, commands.home, commands.dd_addr 0] = [0x01, 0x02, 0x80] ∧
      ∀ fuel, k ≤ fuel → ∃ u, lcd.cls dev F fuel t = Res.done () (t ++ u) ∧
        ∀ s, xfersFrom s u =
          byteXfers false 0x01 ++ pollXfers p1 ++ (byteXfers false 0x02 ++ pollXfers p2 ++
            (byteXfers false 0x80 ++ pollXfers p3)) := by
  obtain ⟨k, p1, p2, p3, h1, h2, h3, h⟩ := cls_clears dev F t hc
  refine ⟨k, p1, p2, p3, h1, h2, h3, rfl, ?_⟩
  intro fuel hk
  refine ⟨_, h fuel hk, fun s => ?_⟩
  rw [xfers_txnEvs]
  simp [txnXfers]

theorem cls_three_commands_witness :
    ∃ k p1 p2 p3, pollUntilReady p1 = true ∧ pollUntilReady p2 = true ∧
      pollUntilReady p3 = true ∧
      [commands.clr, commands.home, commands.dd_addr 0] = [0x01, 0x02, 0x80] ∧
      ∀ fuel, k ≤ fuel → ∃ u, lcd.cls (simDev 3) 2000000 fuel [] = Res.done () ([] ++ u) ∧
        ∀ s, xfersFrom s u =
          byteXfers false 0x01 ++ pollXfers p1 ++ (byteXfers false 0x02 ++ pollXfers p2 ++
            (byteXfers false 0x80 ++ pollXfers p3)) :=
  cls_three_commands (simDev 3) 2000000 [] (sim_cls_clears 3 2000000)

/-- C7 (as amended): in `clear()` each of the three command transactions
(clear, home, set-address-0) is followed by a busy-poll, and when the simulated
controller is configured to stay busy for `N` polls after a command, the poll
following each command observes `N` busy samples (status high nibble 8), so at
least one when `N >= 1`, before the one not-busy sample (status high nibble 0);
the call returns for every poll budget of at least `N + 1` status reads. -/
theorem cls_poll_follows_each_command (N F fuel : Nat) (t : Trace)
    (hf : N + 1 ≤ fuel) (hhi : (ctlAfter N t).hi = none)
    (hlow : (ctlAfter N t).low = false) :
    ∃ u, lcd.cls (simDev N) F fuel t = Res.done () (t ++ u) ∧
      (∀ s, xfersFrom s u =
        byteXfers false 0x01 ++ pollXfers (List.replicate N (8, 1) ++ [(0, 1)]) ++
          (byteXfers false 0x02 ++ pollXfers (List.replicate N (8, 2) ++ [(0, 2)]) ++
            (byteXfers false 0x80 ++ pollXfers (List.replicate N (8, 0) ++ [(0, 0)])))) ∧
      (∀ l, l < 16 → isBusy (8, l) = true ∧ isBusy (0, l) = false) := by
  refine ⟨_, sim_cls N F fuel t hf hhi hlow, fun s => ?_, by decide⟩
  rw [xfers_txnEvs]
  simp [txnXfers]

theorem cls_poll_follows_each_command_witness :
    ∃ u, lcd.cls (simDev 2) 8000000 3 [] = Res.done () ([] ++ u) ∧
      (∀ s, xfersFrom s u =
        byteXfers false 0x01 ++ pollXfers (List.replicate 2 (8, 1) ++ [(0, 1)]) ++
          (byteXfers false 0x02 ++ pollXfers (List.replicate 2 (8, 2) ++ [(0, 2)]) ++
            (byteXfers false 0x80 ++ pollXfers (List.replicate 2 (8, 0) ++ [(0, 0)])))) ∧
      (∀ l, l < 16 → isBusy (8, l) = true ∧ isBusy (0, l) = false) :=
  cls_poll_follows_each_command 2 8000000 3 [] (by decide) rfl rfl

/-- C7 (as stated) fails: against the simulated controller configured to stay
busy for one poll, the first nibble transfer of `clear()` is already the high
nibble of the clear command; no status sample, busy or not, is taken before
the first command. -/
theorem cls_first_command_not_preceded_by_poll :
    readsBefore (xfersFrom ⟨false, false, false, 0⟩ (lcd.cls (simDev 1) 8000000 2 []).trace)
        = [] ∧
      ¬ ∃ v, v ∈ readsBefore
          (xfersFrom ⟨false, false, false, 0⟩ (lcd.cls (simDev 1) 8000000 2 []).trace) ∧
        v &&& 0x8 ≠ 0 := by
  have h := sim_cls 1 8000000 2 [] (by decide) rfl rfl
  have e : readsBefore
      (xfersFrom ⟨false, false, false, 0⟩ (lcd.cls (simDev 1) 8000000 2 []).trace) = [] := by
    rw [h, Res.trace, List.nil_append, xfers_txnEvs]
    rfl
  refine ⟨e, ?_⟩
  rw [e]
  simp

/-- C8: for every NUL-free character sequence `s` (the test case is "AB"),
against a controller whose busy flag eventually clears after each data byte (it
reports busy on finitely many status reads, then not busy), `write_string`
applied to `s` followed by its terminator performs exactly `length(s)`
data-register byte transactions, the i-th carrying the character code `s[i]`,
in order, with Register-Select asserted for both nibbles of each (and a
completed busy-poll after each), and returns the sequence positioned at the
terminator; for the empty string it performs no pin operation at all, against
any device.  The call returns for every sufficiently large poll budget. -/
theorem string_out_data_bytes (dev : Trace → Nat) (F : Nat) (s tail : List Nat) (t : Trace)
    (hs : ∀ c ∈ s, c ≠ 0) (hc : ClearsAfterEach dev F true s t) :
    (∃ k ps, ps.length = s.length ∧ (∀ p ∈ ps, pollUntilReady p = true) ∧
      ∀ fuel, k ≤ fuel → ∃ u,
        lcd.string_out dev F fuel (s ++ 0 :: tail) t = Res.done (0 :: tail) (t ++ u) ∧
        ∀ ln, xfersFrom ln u = txnXfers true (s.zip ps)) ∧
      ∀ fuel, lcd.string_out dev F fuel (0 :: tail) t = Res.done (0 :: tail) t := by
  refine ⟨?_, fun fuel => by simp [lcd.string_out]⟩
  obtain ⟨k, ps, hl, hps, h⟩ := bytesOut_clears dev F true s t hc
  refine ⟨k, ps, hl, hps, fun fuel hk => ⟨_, ?_, fun ln => xfers_txnEvs ln F true _⟩⟩
  rw [string_out_eq dev F fuel s tail t hs, h fuel hk]
  rfl

theorem string_out_data_bytes_witness :
    (∃ k ps, ps.length = [65, 66].length ∧ (∀ p ∈ ps, pollUntilReady p = true) ∧
      ∀ fuel, k ≤ fuel → ∃ u,
        lcd.string_out (simDev 2) 8000000 fuel ([65, 66] ++ 0 :: [])
            (outbyteEvs 8000000 false 0x01) =
          Res.done (0 :: []) (outbyteEvs 8000000 false 0x01 ++ u) ∧
        ∀ ln, xfersFrom ln u = txnXfers true ([65, 66].zip ps)) ∧
      ∀ fuel, lcd.string_out (simDev 2) 8000000 fuel (0 :: [])
          (outbyteEvs 8000000 false 0x01) = Res.done (0 :: []) (outbyteEvs 8000000 false 0x01) :=
  string_out_data_bytes (simDev 2) 8000000 [65, 66] [] (outbyteEvs 8000000 false 0x01)
    (by decide) sim_string_clears

/-- C9: for all nibbles `h` and `l` in 0..15, if the pin interface returns `h`
on the first data-bus sample and `l` on the second, then `read_command()` and
`read_data()` each return the byte `16*h + l`, after exactly two nibble reads
and no data-bus write; `read_command()` reads with Register-Select low and
`read_data()` with Register-Select high, and the top bit of `read_command()`'s
result (the busy flag) is bit 3 of `h`.  Each call takes exactly two samples
whatever the device returns. -/
theorem read_combines_nibbles (dev : Trace → Nat) (F : Nat) (t : Trace) (h l : Nat)
    (hh : h < 16) (hl : l < 16) :
    (sampled (lcd.command_in dev F t).2 = sampled t ++ [h, l] →
        (lcd.command_in dev F t).1 = 16 * h + l ∧
        ((lcd.command_in dev F t).1 &&& lcd.BUSY_FLAG ≠ 0 ↔ h.testBit 3 = true) ∧
        ∃ u, (lcd.command_in dev F t).2 = t ++ u ∧ busWrites u = [] ∧
          ∀ s, xfersFrom s u = [Xfer.rd false h, Xfer.rd false l]) ∧
      (sampled (lcd.data_in dev F t).2 = sampled t ++ [h, l] →
        (lcd.data_in dev F t).1 = 16 * h + l ∧
        ∃ u, (lcd.data_in dev F t).2 = t ++ u ∧ busWrites u = [] ∧
          ∀ s, xfersFrom s u = [Xfer.rd true h, Xfer.rd true l]) ∧
      (sampled (lcd.command_in dev F t).2).length = (sampled t).length + 2 ∧
      (sampled (lcd.data_in dev F t).2).length = (sampled t).length + 2 := by
  have key : ∀ rs, sampled (lcd.inbyte dev F rs t).2 = sampled t ++ [h, l] →
      (lcd.inbyte dev F rs t).1 = 16 * h + l ∧
      ((lcd.inbyte dev F rs t).1 &&& lcd.BUSY_FLAG ≠ 0 ↔ h.testBit 3 = true) ∧
      ∃ u, (lcd.inbyte dev F rs t).2 = t ++ u ∧ busWrites u = [] ∧
        ∀ s, xfersFrom s u = [Xfer.rd rs h, Xfer.rd rs l] := by
    intro rs hsamp
    rw [inbyte_eq] at hsamp ⊢
    simp only [sampled_append, sampled_inbyteEvs, List.append_cancel_left_eq, List.cons.injEq,
      and_true] at hsamp
    have hp : inbyteSamples dev F rs t = (h, l) := Prod.ext hsamp.1 hsamp.2
    rw [hp]
    refine ⟨statusOf_nibbles h hh l hl, busy_bit_of_high h hh l hl, _, rfl,
      busWrites_inbyteEvs F rs _, fun s => (xfers_inbyteEvs s F rs _).1⟩
  have len : ∀ rs, (sampled (lcd.inbyte dev F rs t).2).length = (sampled t).length + 2 := by
    intro rs
    rw [inbyte_eq]
    simp [sampled_append, sampled_inbyteEvs]
  refine ⟨key false, fun hd => ?_, len false, len true⟩
  obtain ⟨a, _, b⟩ := key true hd
  exact ⟨a, b⟩

theorem read_combines_nibbles_witness :
    (lcd.command_in (fun _ => 9) 8000000 []).1 = 16 * 9 + 9 ∧
      (lcd.data_in (fun _ => 9) 8000000 []).1 = 16 * 9 + 9 :=
  ⟨((read_combines_nibbles (fun _ => 9) 8000000 [] 9 9 (by decide) (by decide)).1 rfl).1,
   ((read_combines_nibbles (fun _ => 9) 8000000 [] 9 9 (by decide) (by decide)).2.1 rfl).1⟩

/-- C10: in the pin trace recorded by every public operation (`initialize`,
`clear`, `write_string`, `write_command`, `write_data`, `read_command`,
`read_data`), for every clock frequency `F > 0`, every device, input and poll
budget (also for a run that is still polling), every set of the Enable pin is
followed by a reset of the Enable pin, with at least one delay step of non-zero
duration (timed delay or no-op) between them and no other set of Enable in
between, and Enable is never reset without such a preceding set. -/
theorem enable_pulses_well_formed (dev : Trace → Nat) (F fuel b : Nat) (s : List Nat)
    (t : Trace) (hF : 0 < F) :
    (∃ u, (lcd.init dev F fuel t).trace = t ++ u ∧ enablePulsesOk F u = true) ∧
      (∃ u, (lcd.cls dev F fuel t).trace = t ++ u ∧ enablePulsesOk F u = true) ∧
      (∃ u, (lcd.string_out dev F fuel s t).trace = t ++ u ∧ enablePulsesOk F u = true) ∧
      (∃ u, (lcd.command_out dev F fuel b t).trace = t ++ u ∧ enablePulsesOk F u = true) ∧
      (∃ u, (lcd.data_out dev F fuel b t).trace = t ++ u ∧ enablePulsesOk F u = true) ∧
      (∃ u, (lcd.command_in dev F t).2 = t ++ u ∧ enablePulsesOk F u = true) ∧
      (∃ u, (lcd.data_in dev F t).2 = t ++ u ∧ enablePulsesOk F u = true) := by
  refine ⟨?_, pulses_of_chunked F hF t _ (chunked_cls dev F fuel t),
    pulses_of_chunked F hF t _ (chunked_string_out dev F fuel s t),
    pulses_of_chunked F hF t _ (chunked_outbyte dev F fuel b false t),
    pulses_of_chunked F hF t _ (chunked_outbyte dev F fuel b true t), ?_, ?_⟩
  · obtain ⟨cs, h⟩ := init_trace dev F fuel t
    refine ⟨_, h, ?_⟩
    simp [enablePulsesOk,
      pulseRun_idle_append F _ _ (pulse_initHeadEvs F hF) (pulse_chunksEvs F cs hF)]
  · exact ⟨_, by rw [lcd.command_in, inbyte_eq], by
      simp [enablePulsesOk, pulse_inbyteEvs F false _ hF]⟩
  · exact ⟨_, by rw [lcd.data_in, inbyte_eq], by
      simp [enablePulsesOk, pulse_inbyteEvs F true _ hF]⟩

theorem enable_pulses_well_formed_witness :
    (∃ u, (lcd.init (simDev 1) 1000000 3 []).trace = [] ++ u ∧
        enablePulsesOk 1000000 u = true) ∧
      (∃ u, (lcd.cls (simDev 1) 1000000 3 []).trace = [] ++ u ∧
        enablePulsesOk 1000000 u = true) ∧
      (∃ u, (lcd.string_out (simDev 1) 1000000 3 [65, 66, 0] []).trace = [] ++ u ∧
        enablePulsesOk 1000000 u = true) ∧
      (∃ u, (lcd.command_out (simDev 1) 1000000 3 0x28 []).trace = [] ++ u ∧
        enablePulsesOk 1000000 u = true) ∧
      (∃ u, (lcd.data_out (simDev 1) 1000000 3 0x28 []).trace = [] ++ u ∧
        enablePulsesOk 1000000 u = true) ∧
      (∃ u, (lcd.command_in (simDev 1) 1000000 []).2 = [] ++ u ∧
        enablePulsesOk 1000000 u = true) ∧
      (∃ u, (lcd.data_in (simDev 1) 1000000 []).2 = [] ++ u ∧
        enablePulsesOk 1000000 u = true) :=
  enable_pulses_well_formed (simDev 1) 1000000 3 0x28 [65, 66, 0] [] (by decide)

/-- C11: for every clock frequency `F > 0` Hz the delay that `delay_500ns`
inserts lasts at least 500 ns: it is a timed 0.5 us delay when `F > 4 MHz`, and
otherwise `n` single-cycle no-ops with `n = 1` for `F <= 1 MHz`, `n = 2` for
`1 MHz < F <= 2 MHz` and `n = 4` for `2 MHz < F <= 4 MHz`, where in each case
`n / F >= 500 ns`, that is `n * 10^9 >= 500 * F`. -/
theorem delay_500ns_at_least_500ns (F : Nat) (hF : 0 < F) :
    500 ≤ totalNs F (lcd.delay_500ns F) ∧
      (4000000 < F → lcd.delay_500ns F = [Ev.delay_us 0.5]) ∧
      (F ≤ 4000000 → ∃ n, lcd.delay_500ns F = List.replicate n Ev.nop ∧
        (F ≤ 1000000 → n = 1) ∧ (1000000 < F → F ≤ 2000000 → n = 2) ∧
        (2000000 < F → n = 4) ∧ 500 * F ≤ n * 1000000000) := by
  by_cases h4 : 4000000 < F
  · have e : lcd.delay_500ns F = [Ev.delay_us 0.5] := by simp [lcd.delay_500ns, h4]
    refine ⟨?_, fun _ => e, fun h => absurd h4 (by omega)⟩
    rw [e]
    norm_num [totalNs, Ev.durationNs]
  · by_cases h1 : 1000000 < F
    · by_cases h2 : 2000000 < F
      · have e : lcd.delay_500ns F = List.replicate 4 Ev.nop := by
          simp [lcd.delay_500ns, h4, h1, h2, List.replicate]
        refine ⟨?_, fun h => absurd h h4, fun _ => ⟨4, e, ?_, ?_, ?_, ?_⟩⟩
        · rw [e]; exact totalNs_nops_ge F 4 hF (by omega)
        all_goals omega
      · have e : lcd.delay_500ns F = List.replicate 2 Ev.nop := by
          simp [lcd.delay_500ns, h4, h1, h2, List.replicate]
        refine ⟨?_, fun h => absurd h h4, fun _ => ⟨2, e, ?_, ?_, ?_, ?_⟩⟩
        · rw [e]; exact totalNs_nops_ge F 2 hF (by omega)
        all_goals omega
    · have e : lcd.delay_500ns F = List.replicate 1 Ev.nop := by
        simp [lcd.delay_500ns, h4, h1, List.replicate]
      refine ⟨?_, fun h => absurd h h4, fun _ => ⟨1, e, ?_, ?_, ?_, ?_⟩⟩
      · rw [e]; exact totalNs_nops_ge F 1 hF (by omega)
      all_goals omega

theorem delay_500ns_at_least_500ns_witness :
    500 ≤ totalNs 3686400 (lcd.delay_500ns 3686400) ∧
      (4000000 < 3686400 → lcd.delay_500ns 3686400 = [Ev.delay_us 0.5]) ∧
      (3686400 ≤ 4000000 → ∃ n, lcd.delay_500ns 3686400 = List.replicate n Ev.nop ∧
        (3686400 ≤ 1000000 → n = 1) ∧ (1000000 < 3686400 → 3686400 ≤ 2000000 → n = 2) ∧
        (2000000 < 3686400 → n = 4) ∧ 500 * 3686400 ≤ n * 1000000000) :=
  delay_500ns_at_least_500ns 3686400 (by decide)

/-- C12: for all boolean flags each flag-taking opcode helper returns its fixed
opcode bit OR-ed with exactly the flag bits that are true (the bits are
disjoint, so the OR is also the sum); `clr() = 0x01`, `home() = 0x02`, and in
particular `entry_mode(true,false) = 0x06`,
`display_control(true,false,false) = 0x0C`,
`function_set(false,true,false) = 0x28`. -/
theorem opcode_helpers_pack_flags :
    (∀ inc sh : Bool, commands.entry_mode inc sh
        = 0x04 ||| 0x02 * inc.toNat ||| 0x01 * sh.toNat ∧
      commands.entry_mode inc sh = 0x04 + 0x02 * inc.toNat + 0x01 * sh.toNat) ∧
    (∀ d c b : Bool, commands.display_control d c b
        = 0x08 ||| 0x04 * d.toNat ||| 0x02 * c.toNat ||| 0x01 * b.toNat ∧
      commands.display_control d c b
        = 0x08 + 0x04 * d.toNat + 0x02 * c.toNat + 0x01 * b.toNat) ∧
    (∀ s r : Bool, commands.shift s r = 0x10 ||| 0x08 * s.toNat ||| 0x04 * r.toNat ∧
      commands.shift s r = 0x10 + 0x08 * s.toNat + 0x04 * r.toNat) ∧
    (∀ if8 two font : Bool, commands.function_set if8 two font
        = 0x20 ||| 0x10 * if8.toNat ||| 0x08 * two.toNat ||| 0x04 * font.toNat ∧
      commands.function_set if8 two font
        = 0x20 + 0x10 * if8.toNat + 0x08 * two.toNat + 0x04 * font.toNat) ∧
    commands.clr = 0x01 ∧ commands.home = 0x02 ∧
    commands.entry_mode true false = 0x06 ∧
    commands.display_control true false false = 0x0C ∧
    commands.function_set false true false = 0x28 := by
  decide

/-- C13: for every address `a` (also out of range), `cg_addr(a) = 0x40 + (a mod 64)`
and `dd_addr(a) = 0x80 + (a mod 128)`: the address is silently truncated to 6
resp. 7 bits and the opcode bit is always set, so
`cg_addr(a) = cg_addr(a & 0x3F)`, `dd_addr(a) = dd_addr(a & 0x7F)`, and
`dd_addr(0x7F) = dd_addr(0xFF) = 0xFF`. -/
theorem addr_encoders_truncate (a : Nat) :
    commands.cg_addr a = 0x40 + a % 64 ∧ commands.dd_addr a = 0x80 + a % 128 ∧
      commands.cg_addr a = commands.cg_addr (a &&& 0x3f) ∧
      commands.dd_addr a = commands.dd_addr (a &&& 0x7f) ∧
      commands.cg_addr a &&& 0x40 = 0x40 ∧ commands.dd_addr a &&& 0x80 = 0x80 ∧
      commands.dd_addr 0x7f = 0xff ∧ commands.dd_addr 0xff = 0xff := by
  have h6 : ∀ y, y < 64 → (0x40 + y) &&& 0x40 = 0x40 := by decide
  have h7 : ∀ y, y < 128 → (0x80 + y) &&& 0x80 = 0x80 := by
    set_option maxRecDepth 100000 in decide
  refine ⟨cg_addr_eq a, dd_addr_eq a, ?_, ?_, ?_, ?_, by decide, by decide⟩
  · rw [cg_addr_eq, cg_addr_eq, and_63_eq_mod, Nat.mod_mod]
  · rw [dd_addr_eq, dd_addr_eq, and_127_eq_mod, Nat.mod_mod]
  · rw [cg_addr_eq]; exact h6 _ (Nat.mod_lt _ (by norm_num))
  · rw [dd_addr_eq]; exact h7 _ (Nat.mod_lt _ (by norm_num))

/-- C14: data-bus direction invariant.  Starting with the data pin group
configured as output, the events every public operation appends pass the
direction check and leave the group configured as output (`initialize()`
establishes this also when it starts with the group configured as input):
every read nibble switches the bus to input and back to output right after
Enable is deasserted, every write to the data bus happens while the bus is an
output and every read while it is an input.  This holds for every device,
clock frequency, input and poll budget. -/
theorem data_bus_direction_restored (dev : Trace → Nat) (F fuel b : Nat) (s : List Nat)
    (t : Trace) :
    (∃ u, (lcd.init dev F fuel t).trace = t ++ u ∧ directionOk Dir.output u = true ∧
        directionOk Dir.input u = true) ∧
      (∃ u, (lcd.cls dev F fuel t).trace = t ++ u ∧ directionOk Dir.output u = true) ∧
      (∃ u, (lcd.string_out dev F fuel s t).trace = t ++ u ∧
        directionOk Dir.output u = true) ∧
      (∃ u, (lcd.command_out dev F fuel b t).trace = t ++ u ∧
        directionOk Dir.output u = true) ∧
      (∃ u, (lcd.data_out dev F fuel b t).trace = t ++ u ∧ directionOk Dir.output u = true) ∧
      (∃ u, (lcd.command_in dev F t).2 = t ++ u ∧ directionOk Dir.output u = true) ∧
      (∃ u, (lcd.data_in dev F t).2 = t ++ u ∧ directionOk Dir.output u = true) := by
  have hP := dir_compositional F
  have ok : ∀ u, runMon dirStep Dir.output u = some Dir.output →
      directionOk Dir.output u = true := fun u h => by simp [directionOk, h]
  refine ⟨?_, ?_, ?_, ?_, ?_, ?_, ?_⟩
  · obtain ⟨u, hu, hp⟩ := extends_init hP (fun _ _ => trivial) dev fuel t
    refine ⟨_, hu, ?_, ?_⟩
    · exact ok _ (runMon_loop_append _ _ _ _ (dir_initHeadEvs F).1 hp)
    · have h : runMon dirStep Dir.input (initHeadEvs F ++ u) = some Dir.output := by
        rw [runMon_append, (dir_initHeadEvs F).2]
        exact hp
      simp [directionOk, h]
  · obtain ⟨u, hu, hp⟩ := extends_cls hP (fun _ _ => trivial) dev fuel t
    exact ⟨u, hu, ok u hp⟩
  · obtain ⟨u, hu, hp⟩ := extends_string_out hP dev fuel s t (fun _ _ => trivial)
    exact ⟨u, hu, ok u hp⟩
  · obtain ⟨u, hu, hp⟩ := extends_outbyte hP dev fuel b false t trivial
    exact ⟨u, hu, ok u hp⟩
  · obtain ⟨u, hu, hp⟩ := extends_outbyte hP dev fuel b true t trivial
    exact ⟨u, hu, ok u hp⟩
  · obtain ⟨u, hu, hp⟩ := extends_inbyte hP dev false t
    exact ⟨u, hu, ok u hp⟩
  · obtain ⟨u, hu, hp⟩ := extends_inbyte hP dev true t
    exact ⟨u, hu, ok u hp⟩

/-- C15: the busy flag is re-polled, never cached.  `write_command` and
`write_data` are `outbyte` with Register-Select low resp. high.  For every
`N >= 0`, if the controller reports busy (status bit 7 set) on exactly its
next `N` status reads after the byte was written and not busy on the one
after, then the busy-poll that ends the write terminates after exactly `N + 1`
command-register status reads (each two nibble reads with Register-Select low),
the last of which has bit 7 clear; with a budget of `N` status reads or fewer
the operation has not returned. -/
theorem busy_flag_repolled (dev : Trace → Nat) (F N b : Nat) (rs : Bool) (t : Trace)
    (busy : List Nat) (ready : Nat)
    (hs : statusReads dev F (N + 1) (t ++ outbyteEvs F rs b) = busy ++ [ready])
    (hb : ∀ x ∈ busy, x &&& lcd.BUSY_FLAG ≠ 0) (hr : ready &&& lcd.BUSY_FLAG = 0) :
    (∀ fuel, lcd.command_out dev F fuel b t = lcd.outbyte dev F fuel b false t ∧
        lcd.data_out dev F fuel b t = lcd.outbyte dev F fuel b true t) ∧
      ∃ p, p.length = N + 1 ∧ p.map statusOf = busy ++ [ready] ∧ busy.length = N ∧
        pollUntilReady p = true ∧
        (∀ fuel, N + 1 ≤ fuel →
          lcd.outbyte dev F fuel b rs t =
            Res.done () (t ++ (outbyteEvs F rs b ++ pollEvs F p))) ∧
        (∀ ln, xfersFrom ln (outbyteEvs F rs b ++ pollEvs F p) =
          byteXfers rs b ++ pollXfers p) ∧
        (∀ fuel, fuel ≤ N → ∃ tr, lcd.outbyte dev F fuel b rs t = Res.spin tr) := by
  refine ⟨fun fuel => ⟨rfl, rfl⟩, ?_⟩
  obtain ⟨p, h1, h2, h3, h4, h5⟩ := wait_ready_exact dev F N _ busy ready hs hb hr
  have hl := congrArg List.length h2
  simp only [List.length_map, List.length_append, List.length_singleton, h1] at hl
  refine ⟨p, h1, h2, by omega, h3, ?_, ?_, ?_⟩
  · intro fuel hf
    rw [outbyte_eq, h4 fuel hf, List.append_assoc]
  · intro ln
    rw [xfersFrom_append, (xfers_outbyteEvs ln F rs b).1, xfers_pollEvs]
  · intro fuel hf
    rw [outbyte_eq]
    exact h5 fuel hf

theorem busy_flag_repolled_witness :
    (∀ fuel,
      lcd.command_out (fun t => if (sampled t).length < 4 then 8 else 0) 8000000 fuel 0x41 []
          = lcd.outbyte (fun t => if (sampled t).length < 4 then 8 else 0) 8000000 fuel 0x41
              false [] ∧
        lcd.data_out (fun t => if (sampled t).length < 4 then 8 else 0) 8000000 fuel 0x41 []
          = lcd.outbyte (fun t => if (sampled t).length < 4 then 8 else 0) 8000000 fuel 0x41
              true []) ∧
      ∃ p, p.length = 2 + 1 ∧ p.map statusOf = [0x88, 0x88] ++ [0x00] ∧
        [0x88, 0x88].length = 2 ∧ pollUntilReady p = true ∧
        (∀ fuel, 2 + 1 ≤ fuel →
          lcd.outbyte (fun t => if (sampled t).length < 4 then 8 else 0) 8000000 fuel 0x41
              true [] =
            Res.done () ([] ++ (outbyteEvs 8000000 true 0x41 ++ pollEvs 8000000 p))) ∧
        (∀ ln, xfersFrom ln (outbyteEvs 8000000 true 0x41 ++ pollEvs 8000000 p) =
          byteXfers true 0x41 ++ pollXfers p) ∧
        (∀ fuel, fuel ≤ 2 → ∃ tr,
          lcd.outbyte (fun t => if (sampled t).length < 4 then 8 else 0) 8000000 fuel 0x41
            true [] = Res.spin tr) :=
  busy_flag_repolled (fun t => if (sampled t).length < 4 then 8 else 0) 8000000 2 0x41 true []
    [0x88, 0x88] 0x00 rfl (by decide) (by decide)

/-- C16: the busy-poll has no bound.  Against a controller whose status reads
always have the busy flag set, no `write_command`, `write_data`, `clear` or
`initialize` call returns: for every poll budget the call is still polling
after as many status reads as the budget allows, all of them busy, so for
every `n` it performs more than `n` status reads without completing, and
there is no timeout or error result. -/
theorem busy_poll_unbounded (dev : Trace → Nat) (F : Nat) (hb : AlwaysBusy dev F) (b : Nat)
    (t : Trace) (fuel : Nat) :
    (∃ p, p.length = fuel ∧ (∀ s ∈ p, isBusy s = true) ∧
        lcd.command_out dev F fuel b t =
          Res.spin (t ++ (outbyteEvs F false b ++ pollEvs F p))) ∧
      (∃ p, p.length = fuel ∧ (∀ s ∈ p, isBusy s = true) ∧
        lcd.data_out dev F fuel b t =
          Res.spin (t ++ (outbyteEvs F true b ++ pollEvs F p))) ∧
      (∃ p, p.length = fuel ∧ (∀ s ∈ p, isBusy s = true) ∧
        lcd.cls dev F fuel t =
          Res.spin (t ++ (outbyteEvs F false 0x01 ++ pollEvs F p))) ∧
      (∃ p, p.length = fuel ∧ (∀ s ∈ p, isBusy s = true) ∧
        lcd.init dev F fuel t = Res.spin (t ++ (initHeadEvs F ++ pollEvs F p))) ∧
      (∀ p ln, xfersFrom ln (pollEvs F p) = pollXfers p ∧
        (sampled (pollEvs F p)).length = 2 * p.length) := by
  have key : ∀ rs c, ∃ p, p.length = fuel ∧ (∀ s ∈ p, isBusy s = true) ∧
      lcd.outbyte dev F fuel c rs t = Res.spin (t ++ (outbyteEvs F rs c ++ pollEvs F p)) := by
    intro rs c
    obtain ⟨p, h1, h2, h3⟩ := wait_ready_always_busy dev F hb fuel (t ++ outbyteEvs F rs c)
    exact ⟨p, h1, h2, by rw [outbyte_eq, h3, List.append_assoc]⟩
  refine ⟨key false b, key true b, ?_, ?_, ?_⟩
  · obtain ⟨p, h1, h2, h3⟩ := key false 0x01
    refine ⟨p, h1, h2, ?_⟩
    rw [cls_eq, bytesOut, h3]
    rfl
  · obtain ⟨p, h1, h2, h3⟩ := wait_ready_always_busy dev F hb fuel (t ++ initHeadEvs F)
    refine ⟨p, h1, h2, ?_⟩
    rw [init_eq, h3, List.append_assoc]
    rfl
  · intro p ln
    refine ⟨xfers_pollEvs ln F p, ?_⟩
    induction p with
    | nil => simp [pollEvs, sampled]
    | cons s rest ih =>
      simp only [pollEvs, sampled_append, sampled_inbyteEvs, List.length_append,
        List.length_cons, List.length_nil, ih]
      omega

theorem busy_poll_unbounded_witness :
    (∃ p, p.length = 5 ∧ (∀ s ∈ p, isBusy s = true) ∧
        lcd.command_out (fun _ => 8) 1000000 5 0x01 [] =
          Res.spin ([] ++ (outbyteEvs 1000000 false 0x01 ++ pollEvs 1000000 p))) ∧
      (∃ p, p.length = 5 ∧ (∀ s ∈ p, isBusy s = true) ∧
        lcd.data_out (fun _ => 8) 1000000 5 0x01 [] =
          Res.spin ([] ++ (outbyteEvs 1000000 true 0x01 ++ pollEvs 1000000 p))) ∧
      (∃ p, p.length = 5 ∧ (∀ s ∈ p, isBusy s = true) ∧
        lcd.cls (fun _ => 8) 1000000 5 [] =
          Res.spin ([] ++ (outbyteEvs 1000000 false 0x01 ++ pollEvs 1000000 p))) ∧
      (∃ p, p.length = 5 ∧ (∀ s ∈ p, isBusy s = true) ∧
        lcd.init (fun _ => 8) 1000000 5 [] =
          Res.spin ([] ++ (initHeadEvs 1000000 ++ pollEvs 1000000 p))) ∧
      (∀ p ln, xfersFrom ln (pollEvs 1000000 p) = pollXfers p ∧
        (sampled (pollEvs 1000000 p)).length = 2 * p.length) :=
  busy_poll_unbounded (fun _ => 8) 1000000
    (fun t => by simp [lcd.command_in, lcd.inbyte, lcd.innibble, lcd.BUSY_FLAG]) 0x01 [] 5

/-- C17: every nibble read, in every operation (also in the busy-polls inside
writes, `clear` and `initialize`), is exactly the pin sequence: set Read/Write
high, make the data bus an input, set Enable, the settle delay of
`delay_500ns`, read the data bus, reset Enable, make the data bus an output;
hence every sample of the data bus is taken while Enable is asserted, at
least 500 ns after it was set, with Read/Write high and the bus configured as
input.  This holds for every clock frequency `F > 0`, device, input and poll
budget. -/
theorem nibble_read_sequence (dev : Trace → Nat) (F fuel b : Nat) (s : List Nat)
    (t : Trace) (hF : 0 < F) :
    (∃ u, (lcd.init dev F fuel t).trace = t ++ u ∧ readFramesOk F u = true ∧ samplesOk F u) ∧
      (∃ u, (lcd.cls dev F fuel t).trace = t ++ u ∧ readFramesOk F u = true ∧
        samplesOk F u) ∧
      (∃ u, (lcd.string_out dev F fuel s t).trace = t ++ u ∧ readFramesOk F u = true ∧
        samplesOk F u) ∧
      (∃ u, (lcd.command_out dev F fuel b t).trace = t ++ u ∧ readFramesOk F u = true ∧
        samplesOk F u) ∧
      (∃ u, (lcd.data_out dev F fuel b t).trace = t ++ u ∧ readFramesOk F u = true ∧
        samplesOk F u) ∧
      (∃ u, (lcd.command_in dev F t).2 = t ++ u ∧ readFramesOk F u = true ∧ samplesOk F u) ∧
      (∃ u, (lcd.data_in dev F t).2 = t ++ u ∧ readFramesOk F u = true ∧ samplesOk F u) := by
  have hP := compositional_and (frame_compositional F) (samples_compositional F hF)
  have ok : ∀ u, runMon (frameStep F) Frame.outside u = some Frame.outside →
      readFramesOk F u = true := fun u h => by simp [readFramesOk, h]
  refine ⟨?_, ?_, ?_, ?_, ?_, ?_, ?_⟩
  · obtain ⟨u, hu, hp⟩ := extends_init hP (fun _ _ => trivial) dev fuel t
    exact ⟨_, hu, ok _ (runMon_loop_append _ _ _ _ (frame_initHeadEvs F) hp.1),
      samplesOk_append F _ _ (samplesOk_noRead F _ (sampled_initHeadEvs F)) hp.2⟩
  · obtain ⟨u, hu, hp⟩ := extends_cls hP (fun _ _ => trivial) dev fuel t
    exact ⟨u, hu, ok u hp.1, hp.2⟩
  · obtain ⟨u, hu, hp⟩ := extends_string_out hP dev fuel s t (fun _ _ => trivial)
    exact ⟨u, hu, ok u hp.1, hp.2⟩
  · obtain ⟨u, hu, hp⟩ := extends_outbyte hP dev fuel b false t trivial
    exact ⟨u, hu, ok u hp.1, hp.2⟩
  · obtain ⟨u, hu, hp⟩ := extends_outbyte hP dev fuel b true t trivial
    exact ⟨u, hu, ok u hp.1, hp.2⟩
  · obtain ⟨u, hu, hp⟩ := extends_inbyte hP dev false t
    exact ⟨u, hu, ok u hp.1, hp.2⟩
  · obtain ⟨u, hu, hp⟩ := extends_inbyte hP dev true t
    exact ⟨u, hu, ok u hp.1, hp.2⟩

theorem nibble_read_sequence_witness :
    (∃ u, (lcd.init (simDev 1) 2000000 3 []).trace = [] ++ u ∧
        readFramesOk 2000000 u = true ∧ samplesOk 2000000 u) ∧
      (∃ u, (lcd.cls (simDev 1) 2000000 3 []).trace = [] ++ u ∧
        readFramesOk 2000000 u = true ∧ samplesOk 2000000 u) ∧
      (∃ u, (lcd.string_out (simDev 1) 2000000 3 [72, 105, 0] []).trace = [] ++ u ∧
        readFramesOk 2000000 u = true ∧ samplesOk 2000000 u) ∧
      (∃ u, (lcd.command_out (simDev 1) 2000000 3 0x0C []).trace = [] ++ u ∧
        readFramesOk 2000000 u = true ∧ samplesOk 2000000 u) ∧
      (∃ u, (lcd.data_out (simDev 1) 2000000 3 0x0C []).trace = [] ++ u ∧
        readFramesOk 2000000 u = true ∧ samplesOk 2000000 u) ∧
      (∃ u, (lcd.command_in (simDev 1) 2000000 []).2 = [] ++ u ∧
        readFramesOk 2000000 u = true ∧ samplesOk 2000000 u) ∧
      (∃ u, (lcd.data_in (simDev 1) 2000000 []).2 = [] ++ u ∧
        readFramesOk 2000000 u = true ∧ samplesOk 2000000 u) :=
  nibble_read_sequence (simDev 1) 2000000 3 0x0C [72, 105, 0] [] (by decide)

/-- C18: the command encoding is unambiguous.  The byte produced by the `k`-th
encoder (`clr`, `home`, `entry_mode`, `display_control`, `shift`,
`function_set`, `cg_addr`, `dd_addr`, for `k = 0..7`) has bit `k` as its
highest set bit, so the sets of bytes of two different encoders are disjoint;
each flag helper is injective in its flags, and `cg_addr` and `dd_addr` are
injective on the low 6 resp. 7 address bits. -/
theorem command_encoding_unambiguous :
    (∀ k b, producedBy k b → topBitIs k b = true) ∧
      (∀ j k b, j ≠ k → ¬ (producedBy j b ∧ producedBy k b)) ∧
      (∀ i s i2 s2, commands.entry_mode i s = commands.entry_mode i2 s2 → i = i2 ∧ s = s2) ∧
      (∀ d c k d2 c2 k2, commands.display_control d c k = commands.display_control d2 c2 k2 →
        d = d2 ∧ c = c2 ∧ k = k2) ∧
      (∀ s r s2 r2, commands.shift s r = commands.shift s2 r2 → s = s2 ∧ r = r2) ∧
      (∀ i t f i2 t2 f2, commands.function_set i t f = commands.function_set i2 t2 f2 →
        i = i2 ∧ t = t2 ∧ f = f2) ∧
      (∀ a a2, commands.cg_addr a = commands.cg_addr a2 ↔ a &&& 0x3f = a2 &&& 0x3f) ∧
      (∀ a a2, commands.dd_addr a = commands.dd_addr a2 ↔ a &&& 0x7f = a2 &&& 0x7f) := by
  refine ⟨producedBy_topBit, ?_, by decide, by decide, by decide, by decide, ?_, ?_⟩
  · intro j k b hjk h
    exact hjk (topBitIs_unique j k b (producedBy_topBit j b h.1) (producedBy_topBit k b h.2))
  · intro a a2
    rw [cg_addr_eq, cg_addr_eq, and_63_eq_mod, and_63_eq_mod]
    omega
  · intro a a2
    rw [dd_addr_eq, dd_addr_eq, and_127_eq_mod, and_127_eq_mod]
    omega

/-- C19: every value written to the 4-bit data pin group by any public
operation, for every input byte or string of bytes, is a valid nibble (less
than 16): `initialize()` starts with the reset and mode-switch values 0x3,
0x3, 0x3, 0x2, a byte transaction writes only `b >> 4` and `b & 0x0F`, and
the read operations write nothing.  This holds for every device, clock
frequency and poll budget. -/
theorem bus_writes_are_nibbles (dev : Trace → Nat) (F fuel b : Nat) (s : List Nat)
    (t : Trace) (hb : b < 256) (hs : ∀ c ∈ s, c < 256) :
    (∃ u, (lcd.init dev F fuel t).trace = t ++ u ∧
        (busWrites u).take 4 = [0x3, 0x3, 0x3, 0x2] ∧ ∀ v ∈ busWrites u, v < 16) ∧
      (∃ u, (lcd.cls dev F fuel t).trace = t ++ u ∧ ∀ v ∈ busWrites u, v < 16) ∧
      (∃ u, (lcd.string_out dev F fuel s t).trace = t ++ u ∧ ∀ v ∈ busWrites u, v < 16) ∧
      (∃ u, (lcd.command_out dev F fuel b t).trace = t ++ u ∧
        busWrites u = [b >>> 4, b &&& 0x0f] ∧ ∀ v ∈ busWrites u, v < 16) ∧
      (∃ u, (lcd.data_out dev F fuel b t).trace = t ++ u ∧
        busWrites u = [b >>> 4, b &&& 0x0f] ∧ ∀ v ∈ busWrites u, v < 16) ∧
      (∃ u, (lcd.command_in dev F t).2 = t ++ u ∧ busWrites u = []) ∧
      (∃ u, (lcd.data_in dev F t).2 = t ++ u ∧ busWrites u = []) := by
  have hP := nibbles_compositional F
  have byte : ∀ rs, ∃ u, (lcd.outbyte dev F fuel b rs t).trace = t ++ u ∧
      busWrites u = [b >>> 4, b &&& 0x0f] ∧ ∀ v ∈ busWrites u, v < 16 := by
    intro rs
    obtain ⟨u, hu, hw⟩ := busWrites_outbyte_trace dev F fuel b rs t
    refine ⟨u, hu, hw, fun v hv => ?_⟩
    have := hP.outbyte rs b hb v
    rw [busWrites_outbyteEvs, ← hw] at this
    exact this hv
  refine ⟨?_, extends_cls hP (fun _ h => h) dev fuel t,
    extends_string_out hP dev fuel s t hs, byte false, byte true,
    ⟨_, by rw [lcd.command_in, inbyte_eq], busWrites_inbyteEvs F false _⟩,
    ⟨_, by rw [lcd.data_in, inbyte_eq], busWrites_inbyteEvs F true _⟩⟩
  obtain ⟨u, hu, hp⟩ := extends_init hP (fun _ h => h) dev fuel t
  refine ⟨_, hu, ?_, ?_⟩
  · rw [busWrites_append, busWrites_initHead]
    rfl
  · intro v hv
    rw [busWrites_append, busWrites_initHead, List.mem_append] at hv
    rcases hv with h | h
    · simp only [List.mem_cons, List.mem_singleton, List.not_mem_nil, or_false] at h
      rcases h with rfl | rfl | rfl | rfl <;> norm_num
    · exact hp v h

theorem bus_writes_are_nibbles_witness :
    (∃ u, (lcd.init (simDev 1) 8000000 1 []).trace = [] ++ u ∧
        (busWrites u).take 4 = [0x3, 0x3, 0x3, 0x2] ∧ ∀ v ∈ busWrites u, v < 16) ∧
      (∃ u, (lcd.cls (simDev 1) 8000000 1 []).trace = [] ++ u ∧
        ∀ v ∈ busWrites u, v < 16) ∧
      (∃ u, (lcd.string_out (simDev 1) 8000000 1 [255, 65, 0] []).trace = [] ++ u ∧
        ∀ v ∈ busWrites u, v < 16) ∧
      (∃ u, (lcd.command_out (simDev 1) 8000000 1 0xFF []).trace = [] ++ u ∧
        busWrites u = [0xFF >>> 4, 0xFF &&& 0x0f] ∧ ∀ v ∈ busWrites u, v < 16) ∧
      (∃ u, (lcd.data_out (simDev 1) 8000000 1 0xFF []).trace = [] ++ u ∧
        busWrites u = [0xFF >>> 4, 0xFF &&& 0x0f] ∧ ∀ v ∈ busWrites u, v < 16) ∧
      (∃ u, (lcd.command_in (simDev 1) 8000000 []).2 = [] ++ u ∧ busWrites u = []) ∧
      (∃ u, (lcd.data_in (simDev 1) 8000000 []).2 = [] ++ u ∧ busWrites u = []) :=
  bus_writes_are_nibbles (simDev 1) 8000000 1 0xFF [255, 65, 0] [] (by decide) (by decide)

/-- C20: Register-Select is not persisted by a data write.  For every byte `b`
and every device, whenever `write_data(b)` returns it has first asserted
Register-Select, both of its nibbles were latched with Register-Select
asserted, and, because the trailing busy-poll reads the command register,
Register-Select is deasserted at the return; likewise it is deasserted when
`write_string` of a non-empty string, `write_command`, `clear` or `initialize`
returns, whereas `read_data()` leaves it asserted (and `read_command()`
deasserted).  Each of the write operations does return, for every sufficiently
large poll budget, against a controller whose busy flag eventually clears
after each byte it is sent. -/
theorem register_select_not_persisted (dev : Trace → Nat) (F b : Nat) (s tail : List Nat)
    (t : Trace) (hs : ∀ c ∈ s, c ≠ 0) (hne : s ≠ []) :
    (∀ fuel t2, lcd.data_out dev F fuel b t = Res.done () t2 →
        ∃ u p, t2 = t ++ u ∧ pollUntilReady p = true ∧ u.head? = some (Ev.set Pin.rs) ∧
          ∀ ln, xfersFrom ln u = byteXfers true b ++ pollXfers p ∧
            (u.foldl Lines.step ln).rs = false) ∧
      (∀ fuel t2, lcd.command_out dev F fuel b t = Res.done () t2 →
        ∃ u, t2 = t ++ u ∧ ∀ ln, (u.foldl Lines.step ln).rs = false) ∧
      (∀ fuel r t2, lcd.string_out dev F fuel (s ++ 0 :: tail) t = Res.done r t2 →
        ∃ u, t2 = t ++ u ∧ ∀ ln, (u.foldl Lines.step ln).rs = false) ∧
      (∀ fuel t2, lcd.cls dev F fuel t = Res.done () t2 →
        ∃ u, t2 = t ++ u ∧ ∀ ln, (u.foldl Lines.step ln).rs = false) ∧
      (∀ fuel t2, lcd.init dev F fuel t = Res.done () t2 →
        ∃ u, t2 = t ++ u ∧ ∀ ln, (u.foldl Lines.step ln).rs = false) ∧
      (∃ u, (lcd.data_in dev F t).2 = t ++ u ∧ ∀ ln, (u.foldl Lines.step ln).rs = true) ∧
      (∃ u, (lcd.command_in dev F t).2 = t ++ u ∧
        ∀ ln, (u.foldl Lines.step ln).rs = false) ∧
      ((∃ N, BusyFor dev F N (t ++ outbyteEvs F true b)) →
        ∃ k, ∀ fuel, k ≤ fuel → ∃ t2, lcd.data_out dev F fuel b t = Res.done () t2) ∧
      ((∃ N, BusyFor dev F N (t ++ outbyteEvs F false b)) →
        ∃ k, ∀ fuel, k ≤ fuel → ∃ t2, lcd.command_out dev F fuel b t = Res.done () t2) ∧
      (ClearsAfterEach dev F true s t →
        ∃ k, ∀ fuel, k ≤ fuel → ∃ t2,
          lcd.string_out dev F fuel (s ++ 0 :: tail) t = Res.done (0 :: tail) t2) ∧
      (ClearsAfterEach dev F false [commands.clr, commands.home, commands.dd_addr 0] t →
        ∃ k, ∀ fuel, k ≤ fuel → ∃ t2, lcd.cls dev F fuel t = Res.done () t2) ∧
      (ClearsDuringInit dev F t →
        ∃ k, ∀ fuel, k ≤ fuel → ∃ t2, lcd.init dev F fuel t = Res.done () t2) := by
  refine ⟨?_, ?_, ?_, ?_, ?_, ?_, ?_, ?_, ?_, ?_, ?_, ?_⟩
  · intro fuel t2 h
    obtain ⟨p, hp, ht⟩ := outbyte_done_shape dev F fuel b true t t2 h
    refine ⟨_, p, ht, hp, (lines_outbyte_poll F b true p hp ⟨false, false, false, 0⟩).2.2,
      fun ln => ?_⟩
    exact ⟨(lines_outbyte_poll F b true p hp ln).1, (lines_outbyte_poll F b true p hp ln).2.1⟩
  · intro fuel t2 h
    obtain ⟨p, hp, ht⟩ := outbyte_done_shape dev F fuel b false t t2 h
    exact ⟨_, ht, fun ln => (lines_outbyte_poll F b false p hp ln).2.1⟩
  · intro fuel r t2 h
    obtain ⟨_, hb⟩ := string_out_done_shape dev F fuel s tail r t t2 hs h
    obtain ⟨ps, hl, hps, hu⟩ := bytesOut_done_shape dev F fuel true s t t2 hb
    exact ⟨_, hu, fun ln =>
      lines_txnEvs F true _ (zip_ne_nil s ps hne hl) (zip_polls_ne_nil s ps hps) ln⟩
  · intro fuel t2 h
    rw [cls_eq] at h
    obtain ⟨ps, hl, hps, hu⟩ := bytesOut_done_shape dev F fuel false _ t t2 h
    exact ⟨_, hu, fun ln =>
      lines_txnEvs F false _ (zip_ne_nil _ ps (by simp) hl) (zip_polls_ne_nil _ ps hps) ln⟩
  · intro fuel t2 h
    obtain ⟨_, p0, ps, _, hl, hps, hu⟩ := init_done_shape dev F fuel t t2 h
    refine ⟨_, hu, fun ln => ?_⟩
    rw [List.foldl_append]
    exact lines_txnEvs F false _ (zip_ne_nil _ ps (by simp) (by simpa using hl))
      (zip_polls_ne_nil _ ps hps) _
  · exact ⟨_, by rw [lcd.data_in, inbyte_eq], fun ln => by
      rw [(xfers_inbyteEvs ln F true _).2]⟩
  · exact ⟨_, by rw [lcd.command_in, inbyte_eq], fun ln => by
      rw [(xfers_inbyteEvs ln F false _).2]⟩
  · exact outbyte_returns dev F b true t
  · exact outbyte_returns dev F b false t
  · intro hc
    obtain ⟨k, ps, _, _, h⟩ := bytesOut_clears dev F true s t hc
    refine ⟨k, fun fuel hk => ⟨t ++ txnEvs F true (s.zip ps), ?_⟩⟩
    rw [string_out_eq dev F fuel s tail t hs, h fuel hk]
    rfl
  · intro hc
    obtain ⟨k, p1, p2, p3, _, _, _, h⟩ := cls_clears dev F t hc
    exact ⟨k, fun fuel hk => ⟨_, h fuel hk⟩⟩
  · intro hc
    obtain ⟨k, p0, ps, _, _, _, h⟩ := init_clears dev F t hc
    exact ⟨k, fun fuel hk => ⟨_, h fuel hk⟩⟩

theorem register_select_not_persisted_witness :
    (∃ t2, lcd.data_out (simDev 2) 8000000 3 0x41 (outbyteEvs 8000000 false 0x01)
        = Res.done () t2 ∧
      ∃ u p, t2 = outbyteEvs 8000000 false 0x01 ++ u ∧ pollUntilReady p = true ∧
        u.head? = some (Ev.set Pin.rs) ∧
        ∀ ln, xfersFrom ln u = byteXfers true 0x41 ++ pollXfers p ∧
          (u.foldl Lines.step ln).rs = false) ∧
      (∃ k, ∀ fuel, k ≤ fuel → ∃ t2,
        lcd.data_out (simDev 2) 8000000 fuel 0x41 (outbyteEvs 8000000 false 0x01)
          = Res.done () t2) ∧
      (∃ k, ∀ fuel, k ≤ fuel → ∃ t2,
        lcd.string_out (simDev 2) 8000000 fuel ([65, 66] ++ 0 :: [])
          (outbyteEvs 8000000 false 0x01) = Res.done (0 :: []) t2) := by
  have h := register_select_not_persisted (simDev 2) 8000000 0x41 [65, 66] []
    (outbyteEvs 8000000 false 0x01) (by decide) (by decide)
  obtain ⟨t2, hd⟩ := sim_data_returns
  exact ⟨⟨t2, hd, h.1 3 t2 hd⟩, h.2.2.2.2.2.2.2.1 sim_data_busyFor,
    h.2.2.2.2.2.2.2.2.2.1 sim_string_clears⟩

end hd44780
